import Mathlib

/-!
# Verification of `p_band_scan.c`

A shallow embedding of the parallel band scanner: the stride loop of
`band_worker`, the thread fan-out of `main`, `remove_dc`, and the analysis
pass that `main` runs after the join.

Modelling conventions.

* C `double` values are exact rationals (`ℚ`) and the arithmetic on them is
  exact, except in the section on binary64 arithmetic, where the analysis
  pass is repeated with every operation rounded.
* The counter `band` of the stride loop is a 32-bit `int`: an integer, with
  `band += num_threads` wrapping around in two's complement (`wrap_int`).
  The counters of the other loops run from a constant up to a bound that is
  itself an `int`, and are natural numbers.
* A function of the worker either returns, traps (an integer division by
  zero, or a store outside the `band_power` array), or runs out of fuel.
* The `band_power` array shared by the workers is a list of slots, a slot
  being `none` until a worker stores a value in it.
* The three routines declared in `filter.h` are parameters of the model.
-/

namespace PBandScan

/-! ## Constants -/

/-- The macro `MAXWIDTH`. -/
def MAXWIDTH : ℚ := 40

/-- The macro `THRESHOLD`. -/
def THRESHOLD : ℚ := 2.0

/-- The macro `ALIENS_LOW`. -/
def ALIENS_LOW : ℚ := 50000.0

/-- The macro `ALIENS_HIGH`. -/
def ALIENS_HIGH : ℚ := 150000.0

/-! ## Band geometry -/

/-- The local `bandwidth` of `band_worker` and of `main`:
`Fc = Fs / 2; bandwidth = Fc / num_bands`. -/
def bandwidth (Fs : ℚ) (num_bands : Nat) : ℚ :=
  let Fc := Fs / 2
  Fc / (num_bands : ℚ)

/-- The lower cutoff `band * bandwidth + 0.0001`. -/
def band_low (Fs : ℚ) (num_bands band : Nat) : ℚ :=
  (band : ℚ) * bandwidth Fs num_bands + 0.0001

/-- The upper cutoff `(band + 1) * bandwidth - 0.0001`. -/
def band_high (Fs : ℚ) (num_bands band : Nat) : ℚ :=
  ((band : ℚ) + 1) * bandwidth Fs num_bands - 0.0001

/-! ## The worker -/

/-- The routines of `filter.h` used by `band_worker`; `κ` is the type of a
coefficient buffer and `α` the type of a power value. -/
structure filter_h (κ α : Type) where
  /-- Arguments `Fs`, `Fcl`, `Fch`, `order`; yields the coefficients. -/
  generate_band_pass : ℚ → ℚ → ℚ → Nat → κ
  /-- Arguments `order`, `coeffs`; yields the windowed coefficients. -/
  hamming_window : Nat → κ → κ
  /-- Arguments `num_samples`, `data`, `order`, `coeffs`; yields the power. -/
  convolve_and_compute_power : Nat → List ℚ → Nat → κ → α

/-- The fields of `thread_arg_t` read by the worker.  The `int` fields hold
the non-negative values `main` stores in them.  The `band_power` pointer is
the state threaded through `band_worker`. -/
structure thread_arg_t where
  thread_id : Nat
  num_threads : Nat
  num_bands : Nat
  filter_order : Nat
  Fs : ℚ
  num_samples : Nat
  data : List ℚ
  num_processors : Nat

/-- How a run of a function ends. -/
inductive result (σ : Type) where
  /-- The function returned, leaving the state `s`. -/
  | ret (s : σ)
  /-- The run stopped at an integer division by zero or at a store outside
  the array. -/
  | trap
  /-- The fuel was used up first. -/
  | out_of_fuel
  deriving DecidableEq, Repr

/-- The `int` that a 32-bit two's complement machine keeps of the integer
`x`. -/
def wrap_int (x : Int) : Int := (x + 2147483648) % 4294967296 - 2147483648

/-- The loop `for (band = start; band < num_bands; band += num_threads) body`,
run for at most `fuel` evaluations of its condition.  The body yields `none`
when it traps. -/
def band_loop {σ : Type} (body : Int → σ → Option σ) (num_bands num_threads : Int) :
    Nat → Int → σ → result σ
  | 0, _, _ => result.out_of_fuel
  | fuel + 1, band, s =>
    if band < num_bands then
      match body band s with
      | some s1 => band_loop body num_bands num_threads fuel (wrap_int (band + num_threads)) s1
      | none => result.trap
    else
      result.ret s

/-- The store `band_power[band] = v`; `none` when `band` is not an index of
the array. -/
def store {α : Type} (band_power : List (Option α)) (band : Int) (v : α) :
    Option (List (Option α)) :=
  if 0 ≤ band ∧ band < (band_power.length : Int) then
    some (band_power.set band.toNat (some v))
  else
    none

/-- The value one iteration of the loop of `band_worker` stores in
`band_power[band]`, from the fields of `thread_arg_t` the iteration reads. -/
def band_body {κ α : Type} (F : filter_h κ α) (Fs : ℚ) (num_bands filter_order : Nat)
    (num_samples : Nat) (data : List ℚ) (band : Nat) : α :=
  let filter_coeffs :=
    F.generate_band_pass Fs (band_low Fs num_bands band) (band_high Fs num_bands band)
      filter_order
  let filter_coeffs := F.hamming_window filter_order filter_coeffs
  F.convolve_and_compute_power num_samples data filter_order filter_coeffs

/-- The function `band_worker`, as a transformer of the shared `band_power`
array.  It first evaluates `thread_id % num_processors` for the affinity mask,
which traps when `num_processors` is zero; the affinity call itself touches
neither the loop nor the array. -/
def band_worker {κ α : Type} (F : filter_h κ α) (t : thread_arg_t) (fuel : Nat)
    (band_power : List (Option α)) : result (List (Option α)) :=
  if t.num_processors = 0 then
    result.trap
  else
    let _cpu := t.thread_id % t.num_processors
    band_loop
      (fun band bp =>
        store bp band
          (band_body F t.Fs t.num_bands t.filter_order t.num_samples t.data band.toNat))
      (t.num_bands : Int) (t.num_threads : Int) fuel (t.thread_id : Int) band_power

/-- The values of `band` at which the stride loop of `band_worker` executes
its body, in order. -/
def band_worker_visits (t : thread_arg_t) (fuel : Nat) : result (List Int) :=
  band_loop (fun band visited => some (visited ++ [band]))
    (t.num_bands : Int) (t.num_threads : Int) fuel (t.thread_id : Int) []

/-! ## The fan-out of `main` -/

/-- The command line values and the loaded signal, as `main` holds them. -/
structure main_config where
  Fs : ℚ
  filter_order : Nat
  num_bands : Nat
  num_threads : Nat
  num_procs : Nat
  num_samples : Nat
  data : List ℚ

/-- The compound literal `main` stores in `args[i]`. -/
def main_args (c : main_config) (i : Nat) : thread_arg_t :=
  { thread_id := i
    num_threads := c.num_threads
    num_bands := c.num_bands
    filter_order := c.filter_order
    Fs := c.Fs
    num_samples := c.num_samples
    data := c.data
    num_processors := c.num_procs }

/-- The workers listed in `order` run to completion one after the other on
the array `band_power`; a worker that does not return ends the run. -/
def main_scan_from {κ α : Type} (F : filter_h κ α) (c : main_config) (fuel : Nat) :
    List Nat → List (Option α) → result (List (Option α))
  | [], band_power => result.ret band_power
  | i :: order, band_power =>
    match band_worker F (main_args c i) fuel band_power with
    | result.ret bp => main_scan_from F c fuel order bp
    | result.trap => result.trap
    | result.out_of_fuel => result.out_of_fuel

/-- The array `band_power` from its declaration to the end of the join loop,
the workers listed in `order` running to completion one after the other. -/
def main_scan {κ α : Type} (F : filter_h κ α) (c : main_config) (order : List Nat)
    (fuel : Nat) : result (List (Option α)) :=
  main_scan_from F c fuel order (List.replicate c.num_bands none)

/-! ## Preprocessing -/

/-- The function `remove_dc`. -/
def remove_dc (data : List ℚ) (num : Nat) : List ℚ :=
  let sum := (List.range num).foldl (fun sum i => sum + data.getD i 0) 0
  let avg := sum / (num : ℚ)
  (List.range num).foldl (fun data i => data.set i (data.getD i 0 - avg)) data

/-- The arithmetic mean of a buffer. -/
def mean (data : List ℚ) : ℚ := data.sum / (data.length : ℚ)

/-! ## The analysis pass of `main` -/

/-- What the report loop prints after the bar of a band. -/
inductive label where
  | WOW
  | meh
  deriving DecidableEq, Repr

/-- The last line `main` prints. -/
inductive verdict where
  | possible_aliens (lb ub center : ℚ)
  | no_aliens
  deriving DecidableEq, Repr

/-- The locals the report loop updates, the labels printed so far, and the
divisor of every division evaluated so far. -/
structure report_state where
  lb : ℚ
  ub : ℚ
  wow : Bool
  labels : List label
  divisors : List ℚ
  deriving DecidableEq, Repr

/-- The loop computing `max_band_power` and `sum`; yields the pair. -/
def main_stats (num_bands : Nat) (band_power : List ℚ) : ℚ × ℚ :=
  (List.range' 1 (num_bands - 1)).foldl
    (fun s i =>
      (if band_power.getD i 0 > s.1 then band_power.getD i 0 else s.1,
        s.2 + band_power.getD i 0))
    (band_power.getD 0 0, band_power.getD 0 0)

/-- The condition guarding the classification in the report loop. -/
def in_window (band_low band_high : ℚ) : Prop :=
  (band_low ≥ ALIENS_LOW ∧ band_low ≤ ALIENS_HIGH) ∨
    (band_high ≥ ALIENS_LOW ∧ band_high ≤ ALIENS_HIGH)

instance (band_low band_high : ℚ) : Decidable (in_window band_low band_high) := by
  unfold in_window
  infer_instance

/-- One iteration of the report loop.  The bar is printed by a loop whose
condition divides `band_power[band]` by `max_band_power`; the condition is
evaluated at least once, which is the division recorded here. -/
def report_band (Fs : ℚ) (num_bands : Nat) (band_power : List ℚ)
    (max_band_power avg_band_power : ℚ) (st : report_state) (band : Nat) : report_state :=
  let band_low := band_low Fs num_bands band
  let band_high := band_high Fs num_bands band
  let st := { st with divisors := st.divisors ++ [max_band_power] }
  if in_window band_low band_high then
    if band_power.getD band 0 > THRESHOLD * avg_band_power then
      { st with
        labels := st.labels ++ [label.WOW]
        wow := true
        lb := if st.lb < 0 then band_low else st.lb
        ub := band_high }
    else
      { st with labels := st.labels ++ [label.meh] }
  else
    { st with labels := st.labels ++ [label.meh] }

/-- The outcome of the analysis pass. -/
structure analysis where
  max_band_power : ℚ
  avg_band_power : ℚ
  final : report_state
  verdict : verdict
  divisors : List ℚ
  deriving DecidableEq, Repr

/-- The part of `main` after the join loop. -/
def main_analysis (Fs : ℚ) (num_bands : Nat) (band_power : List ℚ) : analysis :=
  let stats := main_stats num_bands band_power
  let max_band_power := stats.1
  let sum := stats.2
  let avg_band_power := sum / (num_bands : ℚ)
  let init : report_state :=
    { lb := -1, ub := -1, wow := false, labels := []
      divisors := [2, (num_bands : ℚ), (num_bands : ℚ)] }
  let final :=
    (List.range num_bands).foldl
      (report_band Fs num_bands band_power max_band_power avg_band_power) init
  if final.wow then
    { max_band_power := max_band_power
      avg_band_power := avg_band_power
      final := final
      verdict := verdict.possible_aliens final.lb final.ub ((final.ub + final.lb) / 2.0)
      divisors := final.divisors ++ [2.0] }
  else
    { max_band_power := max_band_power
      avg_band_power := avg_band_power
      final := final
      verdict := verdict.no_aliens
      divisors := final.divisors }

/-- Band `band` is classified anomalous: it is in the window and its power
exceeds `THRESHOLD` times the average. -/
def anomalous (Fs : ℚ) (num_bands : Nat) (band_power : List ℚ) (avg_band_power : ℚ)
    (band : Nat) : Prop :=
  in_window (band_low Fs num_bands band) (band_high Fs num_bands band) ∧
    band_power.getD band 0 > THRESHOLD * avg_band_power

instance (Fs : ℚ) (num_bands : Nat) (band_power : List ℚ) (avg_band_power : ℚ) (band : Nat) :
    Decidable (anomalous Fs num_bands band_power avg_band_power band) := by
  unfold anomalous
  infer_instance

/-! ## Auxiliary definitions used by the statements -/

/-- A stand-in for `filter.h` whose power value is the pair of cutoffs that
was handed to `generate_band_pass`. -/
def cutoff_recorder : filter_h (ℚ × ℚ) (ℚ × ℚ) where
  generate_band_pass := fun _ Fcl Fch _ => (Fcl, Fch)
  hamming_window := fun _ coeffs => coeffs
  convolve_and_compute_power := fun _ _ _ coeffs => coeffs

/-- Frequency `f` lies in the closed interval `[band_low, band_high]` of band
`band`. -/
def in_band (Fs : ℚ) (num_bands band : Nat) (f : ℚ) : Prop :=
  band_low Fs num_bands band ≤ f ∧ f ≤ band_high Fs num_bands band

/-- The closed intervals `[lo, hi]` and `[ALIENS_LOW, ALIENS_HIGH]` have a
common point. -/
def overlaps_window (lo hi : ℚ) : Prop :=
  ∃ f : ℚ, (lo ≤ f ∧ f ≤ hi) ∧ (ALIENS_LOW ≤ f ∧ f ≤ ALIENS_HIGH)

/-! ## The analysis pass in binary64 arithmetic

The definitions of this section repeat the analysis pass with a rounding `r`
applied to the exact result of every arithmetic operation on a `double` and
to the decimal literal `0.0001`.  With `r` the identity they are the
definitions above; with `r = to_double` every operation rounds to the nearest
binary64 number, ties to even. -/

/-- The integer nearest to `x`, the even one of the two when `x` is half way
between them. -/
def round_half_even (x : ℚ) : ℤ :=
  if x - (⌊x⌋ : ℚ) < 1 / 2 then ⌊x⌋
  else if 1 / 2 < x - (⌊x⌋ : ℚ) then ⌊x⌋ + 1
  else if ⌊x⌋ % 2 = 0 then ⌊x⌋
  else ⌊x⌋ + 1

/-- The exponent of the spacing of the binary64 numbers around `q`: 52 below
the exponent of `q`, and `-1074` in the subnormal range. -/
def ulp_exponent (q : ℚ) : ℤ := max (Int.log 2 |q| - 52) (-1074)

/-- The binary64 number nearest to `q`, ties to even, for `q` below the
overflow threshold `2 ^ 1024`. -/
def to_double (q : ℚ) : ℚ :=
  (round_half_even (q / 2 ^ ulp_exponent q) : ℚ) * 2 ^ ulp_exponent q

/-- The local `bandwidth`, every operation rounded by `r`. -/
def bandwidth_rounded (r : ℚ → ℚ) (Fs : ℚ) (num_bands : Nat) : ℚ :=
  let Fc := r (Fs / 2)
  r (Fc / (num_bands : ℚ))

/-- The local `band_low` of the report loop, every operation rounded by `r`. -/
def band_low_rounded (r : ℚ → ℚ) (Fs : ℚ) (num_bands band : Nat) : ℚ :=
  r (r ((band : ℚ) * bandwidth_rounded r Fs num_bands) + r 0.0001)

/-- The local `band_high` of the report loop, every operation rounded by
`r`. -/
def band_high_rounded (r : ℚ → ℚ) (Fs : ℚ) (num_bands band : Nat) : ℚ :=
  r (r (((band : ℚ) + 1) * bandwidth_rounded r Fs num_bands) - r 0.0001)

/-- The loop computing `max_band_power` and `sum`, every addition rounded by
`r`. -/
def main_stats_rounded (r : ℚ → ℚ) (num_bands : Nat) (band_power : List ℚ) : ℚ × ℚ :=
  (List.range' 1 (num_bands - 1)).foldl
    (fun s i =>
      (if band_power.getD i 0 > s.1 then band_power.getD i 0 else s.1,
        r (s.2 + band_power.getD i 0)))
    (band_power.getD 0 0, band_power.getD 0 0)

/-- One iteration of the report loop, every operation rounded by `r`. -/
def report_band_rounded (r : ℚ → ℚ) (Fs : ℚ) (num_bands : Nat) (band_power : List ℚ)
    (max_band_power avg_band_power : ℚ) (st : report_state) (band : Nat) : report_state :=
  let band_low := band_low_rounded r Fs num_bands band
  let band_high := band_high_rounded r Fs num_bands band
  let st := { st with divisors := st.divisors ++ [max_band_power] }
  if in_window band_low band_high then
    if band_power.getD band 0 > r (THRESHOLD * avg_band_power) then
      { st with
        labels := st.labels ++ [label.WOW]
        wow := true
        lb := if st.lb < 0 then band_low else st.lb
        ub := band_high }
    else
      { st with labels := st.labels ++ [label.meh] }
  else
    { st with labels := st.labels ++ [label.meh] }

/-- The part of `main` after the join loop, every operation rounded by `r`. -/
def main_analysis_rounded (r : ℚ → ℚ) (Fs : ℚ) (num_bands : Nat) (band_power : List ℚ) :
    analysis :=
  let stats := main_stats_rounded r num_bands band_power
  let max_band_power := stats.1
  let sum := stats.2
  let avg_band_power := r (sum / (num_bands : ℚ))
  let init : report_state :=
    { lb := -1, ub := -1, wow := false, labels := []
      divisors := [2, (num_bands : ℚ), (num_bands : ℚ)] }
  let final :=
    (List.range num_bands).foldl
      (report_band_rounded r Fs num_bands band_power max_band_power avg_band_power) init
  if final.wow then
    { max_band_power := max_band_power
      avg_band_power := avg_band_power
      final := final
      verdict :=
        verdict.possible_aliens final.lb final.ub (r (r (final.ub + final.lb) / 2.0))
      divisors := final.divisors ++ [2.0] }
  else
    { max_band_power := max_band_power
      avg_band_power := avg_band_power
      final := final
      verdict := verdict.no_aliens
      divisors := final.divisors }

/-- Band `band` is classified anomalous by the report loop rounded by `r`. -/
def anomalous_rounded (r : ℚ → ℚ) (Fs : ℚ) (num_bands : Nat) (band_power : List ℚ)
    (avg_band_power : ℚ) (band : Nat) : Prop :=
  in_window (band_low_rounded r Fs num_bands band) (band_high_rounded r Fs num_bands band) ∧
    band_power.getD band 0 > r (THRESHOLD * avg_band_power)

instance (r : ℚ → ℚ) (Fs : ℚ) (num_bands : Nat) (band_power : List ℚ) (avg_band_power : ℚ)
    (band : Nat) : Decidable (anomalous_rounded r Fs num_bands band_power avg_band_power band) := by
  unfold anomalous_rounded
  infer_instance

/-! ## The stride loop -/

/-- Stepping the stride by one period: for `b ≠ band`, `b` lies on the stride
from `band` exactly when it lies on the stride from `band + nt`. -/
theorem stride_step {nt band b : Nat} (hnt : 0 < nt) (hb : b ≠ band) :
    (band ≤ b ∧ nt ∣ (b - band)) ↔ (band + nt ≤ b ∧ nt ∣ (b - (band + nt))) := by
  constructor
  · rintro ⟨h1, k, hk⟩
    have hk0 : k ≠ 0 := by
      rintro rfl
      omega
    obtain ⟨j, rfl⟩ := Nat.exists_eq_succ_of_ne_zero hk0
    have : b - band = nt + nt * j := by rw [hk, Nat.mul_succ]; ring
    refine ⟨by omega, j, by omega⟩
  · rintro ⟨h1, k, hk⟩
    refine ⟨by omega, k + 1, ?_⟩
    have : b - band = (b - (band + nt)) + nt := by omega
    rw [this, hk]; ring

theorem stride_iff_mod {nt t b : Nat} (ht : t < nt) :
    (t ≤ b ∧ nt ∣ (b - t)) ↔ b % nt = t := by
  constructor
  · rintro ⟨h1, k, hk⟩
    have : b = t + nt * k := by omega
    rw [this, Nat.add_mul_mod_self_left, Nat.mod_eq_of_lt ht]
  · intro h
    have h2 := Nat.div_add_mod b nt
    have h3 : t ≤ b := by rw [← h]; exact Nat.mod_le b nt
    refine ⟨h3, b / nt, ?_⟩
    omega

/-- An integer in the range of `int` is kept as it is. -/
theorem wrap_int_eq {x : Int} (h1 : -2147483648 ≤ x) (h2 : x < 2147483648) :
    wrap_int x = x := by
  unfold wrap_int
  omega

/-- The increment `band += num_threads` from a band below `num_bands`, when
`num_bands + num_threads` is at most `2 ^ 31`. -/
theorem wrap_int_step {nb nt band : Nat} (hint : nb + nt ≤ 2147483648) (hlt : band < nb) :
    wrap_int ((band : Int) + (nt : Int)) = ((band + nt : Nat) : Int) := by
  rw [wrap_int_eq (by omega) (by omega)]
  push_cast
  rfl

/-- A store at an index of the array succeeds. -/
theorem store_of_lt {α : Type} (bp : List (Option α)) (band : Nat) (v : α)
    (h : band < bp.length) : store bp (band : Int) v = some (bp.set band (some v)) := by
  unfold store
  rw [if_pos ⟨by omega, by omega⟩, Int.toNat_ofNat]

/-- The stride loop without overflow, started at `band`: it returns; the
indices it visits are those of the stride from `band` below `nb`, each once;
and with the store of `band_worker` as body it stores exactly at the visited
indices. -/
theorem band_loop_visits (nb nt : Nat) (hnt : 0 < nt) (hint : nb + nt ≤ 2147483648) :
    ∀ (fuel band : Nat), nb ≤ band + fuel →
      ∃ L : List Nat,
        (∀ acc : List Int,
          band_loop (fun b v => some (v ++ [b])) (nb : Int) (nt : Int) (fuel + 1) (band : Int)
            acc = result.ret (acc ++ L.map Int.ofNat)) ∧
        (∀ b, L.count b = if band ≤ b ∧ b < nb ∧ nt ∣ (b - band) then 1 else 0) ∧
        ∀ (α : Type) (P : Nat → α) (bp : List (Option α)), bp.length = nb →
          band_loop (fun b bp => store bp b (P b.toNat)) (nb : Int) (nt : Int) (fuel + 1)
            (band : Int) bp =
            result.ret (L.foldl (fun bp b => bp.set b (some (P b))) bp) := by
  intro fuel
  induction fuel with
  | zero =>
    intro band h
    have hn : ¬ (band : Int) < (nb : Int) := by omega
    refine ⟨[], ?_, ?_, ?_⟩
    · intro acc
      simp [band_loop, hn]
    · intro b
      have : ¬ (band ≤ b ∧ b < nb ∧ nt ∣ (b - band)) := by omega
      simp [this]
    · intro α P bp _
      simp [band_loop, hn]
  | succ fuel ih =>
    intro band h
    by_cases hlt : band < nb
    · have hlt2 : (band : Int) < (nb : Int) := by omega
      obtain ⟨L, hL, hc, hw⟩ := ih (band + nt) (by omega)
      refine ⟨band :: L, ?_, ?_, ?_⟩
      · intro acc
        rw [band_loop, if_pos hlt2]
        simp only
        rw [wrap_int_step hint hlt, hL]
        simp
      · intro b
        rw [List.count_cons, hc b]
        by_cases hb : b = band
        · subst hb
          simp [hlt]; omega
        · have hs := stride_step hnt hb
          have hb2 : ¬ (band == b) = true := by simpa using fun h => hb h.symm
          by_cases hc1 : band ≤ b ∧ b < nb ∧ nt ∣ (b - band)
          · have : band + nt ≤ b ∧ b < nb ∧ nt ∣ (b - (band + nt)) :=
              ⟨(hs.1 ⟨hc1.1, hc1.2.2⟩).1, hc1.2.1, (hs.1 ⟨hc1.1, hc1.2.2⟩).2⟩
            simp [this, hc1, hb2]
          · have : ¬ (band + nt ≤ b ∧ b < nb ∧ nt ∣ (b - (band + nt))) := by
              rintro ⟨a1, a2, a3⟩
              exact hc1 ⟨(hs.2 ⟨a1, a3⟩).1, a2, (hs.2 ⟨a1, a3⟩).2⟩
            simp [this, hc1, hb2]
      · intro α P bp hlen
        rw [band_loop, if_pos hlt2, store_of_lt bp band _ (by omega)]
        simp only
        rw [wrap_int_step hint hlt, hw α P _ (by rw [List.length_set, hlen]), Int.toNat_ofNat]
        rfl
    · have hn : ¬ (band : Int) < (nb : Int) := by omega
      refine ⟨[], ?_, ?_, ?_⟩
      · intro acc
        simp [band_loop, hn]
      · intro b
        have : ¬ (band ≤ b ∧ b < nb ∧ nt ∣ (b - band)) := by omega
        simp [this]
      · intro α P bp _
        simp [band_loop, hn]

/-- The stride loop without overflow, with the store of `band_worker` as
body, on an array of `nb` slots: it returns, and slot `b` holds `P b` when `b`
is on the stride from `band` and is unchanged otherwise. -/
theorem band_loop_writes {α : Type} (P : Nat → α) (nb nt : Nat) (hnt : 0 < nt)
    (hint : nb + nt ≤ 2147483648) :
    ∀ (fuel band : Nat) (bp : List (Option α)), nb ≤ band + fuel → bp.length = nb →
      ∃ bp1, band_loop (fun b bp => store bp b (P b.toNat)) (nb : Int) (nt : Int) (fuel + 1)
          (band : Int) bp = result.ret bp1 ∧
        bp1.length = nb ∧
        ∀ b, bp1[b]? =
          if band ≤ b ∧ b < nb ∧ nt ∣ (b - band) then some (some (P b)) else bp[b]? := by
  intro fuel
  induction fuel with
  | zero =>
    intro band bp h hlen
    have hn : ¬ (band : Int) < (nb : Int) := by omega
    refine ⟨bp, ?_, hlen, ?_⟩
    · simp [band_loop, hn]
    · intro b
      have : ¬ (band ≤ b ∧ b < nb ∧ nt ∣ (b - band)) := by omega
      simp [this]
  | succ fuel ih =>
    intro band bp h hlen
    by_cases hlt : band < nb
    · have hlt2 : (band : Int) < (nb : Int) := by omega
      obtain ⟨bp1, hL, hlen1, hc⟩ :=
        ih (band + nt) (bp.set band (some (P band))) (by omega)
          (by rw [List.length_set, hlen])
      refine ⟨bp1, ?_, hlen1, ?_⟩
      · rw [band_loop, if_pos hlt2, store_of_lt bp band _ (by omega)]
        simp only
        rw [wrap_int_step hint hlt, Int.toNat_ofNat]
        exact hL
      · intro b
        rw [hc b, List.getElem?_set]
        by_cases hb : b = band
        · subst hb
          have h1 : ¬ (b + nt ≤ b ∧ b < nb ∧ nt ∣ (b - (b + nt))) := by omega
          have h2 : b ≤ b ∧ b < nb ∧ nt ∣ (b - b) := ⟨le_refl _, hlt, by simp⟩
          rw [if_neg h1, if_pos h2, if_pos rfl, if_pos (by omega)]
        · have hs := stride_step hnt hb
          have hb2 : ¬ band = b := fun h => hb h.symm
          rw [if_neg hb2]
          by_cases hc1 : band ≤ b ∧ b < nb ∧ nt ∣ (b - band)
          · have : band + nt ≤ b ∧ b < nb ∧ nt ∣ (b - (band + nt)) :=
              ⟨(hs.1 ⟨hc1.1, hc1.2.2⟩).1, hc1.2.1, (hs.1 ⟨hc1.1, hc1.2.2⟩).2⟩
            rw [if_pos this, if_pos hc1]
          · have : ¬ (band + nt ≤ b ∧ b < nb ∧ nt ∣ (b - (band + nt))) := by
              rintro ⟨a1, a2, a3⟩
              exact hc1 ⟨(hs.2 ⟨a1, a3⟩).1, a2, (hs.2 ⟨a1, a3⟩).2⟩
            rw [if_neg this, if_neg hc1]
    · have hn : ¬ (band : Int) < (nb : Int) := by omega
      refine ⟨bp, ?_, hlen, ?_⟩
      · simp [band_loop, hn]
      · intro b
        have : ¬ (band ≤ b ∧ b < nb ∧ nt ∣ (b - band)) := by omega
        simp [this]

/-- The worker as the stride loop, when `num_processors` is positive. -/
theorem band_worker_eq_loop {κ α : Type} (F : filter_h κ α) (c : main_config)
    (hp : 0 < c.num_procs) (i fuel : Nat) (bp : List (Option α)) :
    band_worker F (main_args c i) fuel bp =
      band_loop
        (fun band bp =>
          store bp band
            (band_body F c.Fs c.num_bands c.filter_order c.num_samples c.data band.toNat))
        (c.num_bands : Int) (c.num_threads : Int) fuel (i : Int) bp := by
  unfold band_worker main_args
  simp only
  rw [if_neg (by omega)]

/-- One worker with `thread_id < num_threads`, on an array of `num_bands`
slots: it returns, and it has stored the band value in the slots `b` with
`b % num_threads = thread_id` and left the other slots as they were. -/
theorem band_worker_slots {κ α : Type} (F : filter_h κ α) (c : main_config)
    (ht : 0 < c.num_threads) (hp : 0 < c.num_procs)
    (hint : c.num_bands + c.num_threads ≤ 2147483648) (i : Nat) (hi : i < c.num_threads)
    (fuel : Nat) (hfuel : c.num_bands < fuel) (bp : List (Option α))
    (hlen : bp.length = c.num_bands) :
    ∃ bp1, band_worker F (main_args c i) fuel bp = result.ret bp1 ∧
      bp1.length = c.num_bands ∧
      ∀ b, b < c.num_bands → bp1[b]? =
        if b % c.num_threads = i then
          some (some (band_body F c.Fs c.num_bands c.filter_order c.num_samples c.data b))
        else bp[b]? := by
  obtain ⟨f, rfl⟩ : ∃ f, fuel = f + 1 := ⟨fuel - 1, by omega⟩
  obtain ⟨bp1, h1, h2, h3⟩ :=
    band_loop_writes (band_body F c.Fs c.num_bands c.filter_order c.num_samples c.data)
      c.num_bands c.num_threads ht hint f i bp (by omega) hlen
  refine ⟨bp1, by rw [band_worker_eq_loop F c hp]; exact h1, h2, ?_⟩
  intro b hb
  rw [h3 b]
  have hm := @stride_iff_mod c.num_threads i b hi
  by_cases hc : b % c.num_threads = i
  · have : i ≤ b ∧ b < c.num_bands ∧ c.num_threads ∣ (b - i) :=
      ⟨(hm.2 hc).1, hb, (hm.2 hc).2⟩
    rw [if_pos this, if_pos hc]
  · have : ¬ (i ≤ b ∧ b < c.num_bands ∧ c.num_threads ∣ (b - i)) := by
      rintro ⟨a1, _, a3⟩
      exact hc (hm.1 ⟨a1, a3⟩)
    rw [if_neg this, if_neg hc]

/-- Workers run one after the other, in any list `ts` of thread ids below
`num_threads`: slot `b` holds the band value when the owner `b % num_threads`
is in `ts`, and is untouched otherwise. -/
theorem main_scan_slots {κ α : Type} (F : filter_h κ α) (c : main_config)
    (ht : 0 < c.num_threads) (hp : 0 < c.num_procs)
    (hint : c.num_bands + c.num_threads ≤ 2147483648) (fuel : Nat)
    (hfuel : c.num_bands < fuel) :
    ∀ (ts : List Nat), (∀ i ∈ ts, i < c.num_threads) →
      ∀ (bp : List (Option α)), bp.length = c.num_bands →
        ∃ bp1, main_scan_from F c fuel ts bp = result.ret bp1 ∧ bp1.length = c.num_bands ∧
          ∀ b, b < c.num_bands → bp1[b]? =
            if b % c.num_threads ∈ ts then
              some (some (band_body F c.Fs c.num_bands c.filter_order c.num_samples c.data b))
            else bp[b]? := by
  intro ts
  induction ts with
  | nil =>
    intro _ bp hlen
    exact ⟨bp, rfl, hlen, fun b _ => by simp⟩
  | cons i ts ih =>
    intro hts bp hlen
    obtain ⟨bp1, h1, hl1, hs1⟩ :=
      band_worker_slots F c ht hp hint i (hts i (List.mem_cons_self _ _)) fuel hfuel bp hlen
    obtain ⟨bp2, h2, hl2, hs2⟩ :=
      ih (fun j hj => hts j (List.mem_cons_of_mem _ hj)) bp1 hl1
    refine ⟨bp2, ?_, hl2, ?_⟩
    · rw [main_scan_from, h1]
      exact h2
    · intro b hb
      rw [hs2 b hb, hs1 b hb]
      by_cases hm : b % c.num_threads ∈ ts
      · rw [if_pos hm, if_pos (List.mem_cons_of_mem _ hm)]
      · rw [if_neg hm]
        by_cases he : b % c.num_threads = i
        · rw [if_pos he, if_pos (by rw [he]; exact List.mem_cons_self _ _)]
        · rw [if_neg he, if_neg (by simp [he, hm])]

/-- With every worker run, the array is the list of the band values. -/
theorem main_scan_eq {κ α : Type} (F : filter_h κ α) (c : main_config)
    (ht : 0 < c.num_threads) (hp : 0 < c.num_procs)
    (hint : c.num_bands + c.num_threads ≤ 2147483648) (order : List Nat)
    (hperm : order.Perm (List.range c.num_threads)) (fuel : Nat)
    (hfuel : c.num_bands < fuel) :
    main_scan F c order fuel =
      result.ret ((List.range c.num_bands).map fun b =>
        some (band_body F c.Fs c.num_bands c.filter_order c.num_samples c.data b)) := by
  have hmem : ∀ i, i ∈ order ↔ i < c.num_threads := fun i => by
    rw [hperm.mem_iff, List.mem_range]
  obtain ⟨bp1, h1, h2, h3⟩ :=
    main_scan_slots F c ht hp hint fuel hfuel order (fun i hi => (hmem i).1 hi)
      (List.replicate c.num_bands none) (by simp)
  rw [main_scan, h1]
  congr 1
  apply List.ext_getElem?
  intro b
  by_cases hb : b < c.num_bands
  · rw [h3 b hb, if_pos ((hmem _).2 (Nat.mod_lt _ ht))]
    simp [hb]
  · rw [List.getElem?_eq_none (by omega), List.getElem?_eq_none (by simp; omega)]

/-- Once a worker has trapped, the run of the remaining workers is not
reached. -/
theorem main_scan_from_trap {κ α : Type} (F : filter_h κ α) (c : main_config) (fuel : Nat)
    (i : Nat) (order : List Nat) (bp : List (Option α))
    (h : band_worker F (main_args c i) fuel bp = result.trap) :
    main_scan_from F c fuel (i :: order) bp = result.trap := by
  rw [main_scan_from, h]

/-- C1, refuted as stated: with 2 bands and 2147483647 threads, the increment
of worker 1 overflows: the loop body runs with `band` equal to `1`, then
`-2147483648`, then `-1`, and the second store is outside the array. -/
theorem band_worker_overflow_counterexample :
    1 ≤ 2 ∧ 1 ≤ 2147483647 ∧
      band_worker_visits (main_args ⟨1000000, 64, 2, 2147483647, 1, 0, []⟩ 1) 4 =
        result.ret [1, -2147483648, -1] ∧
      band_worker cutoff_recorder (main_args ⟨1000000, 64, 2, 2147483647, 1, 0, []⟩ 1) 4
        [none, none] = result.trap := by
  refine ⟨by decide, by decide, by decide, ?_⟩
  rfl

/-- C1, amended.  Partition completeness and disjoint slot ownership, when
`band += num_threads` cannot overflow.  With `num_bands ≥ 1`,
`num_threads ≥ 1`, `num_bands + num_threads ≤ 2 ^ 31` and enough fuel, the
stride loop of every worker `i < num_threads` returns; every value of `band` it
visits is an index below `num_bands`; it visits a band index `b < num_bands`
once when `i = b % num_threads` and not at all otherwise, and
`b % num_threads` is one of the workers.  When `num_processors ≥ 1`, the
worker returns and the slots it stores into are the indices it visits. -/
theorem band_worker_partition (c : main_config) (hb : 1 ≤ c.num_bands)
    (ht : 1 ≤ c.num_threads) (hint : c.num_bands + c.num_threads ≤ 2147483648) (fuel : Nat)
    (hfuel : c.num_bands < fuel) :
    (∀ i, i < c.num_threads →
      ∃ visited : List Nat,
        band_worker_visits (main_args c i) fuel = result.ret (visited.map Int.ofNat) ∧
        (∀ b, b ∈ visited → b < c.num_bands) ∧
        (∀ b, b < c.num_bands → visited.count b = if b % c.num_threads = i then 1 else 0) ∧
        ∀ (κ α : Type) (F : filter_h κ α) (bp : List (Option α)),
          1 ≤ c.num_procs → bp.length = c.num_bands →
          band_worker F (main_args c i) fuel bp =
            result.ret (visited.foldl
              (fun bp band =>
                bp.set band
                  (some (band_body F c.Fs c.num_bands c.filter_order c.num_samples c.data band)))
              bp)) ∧
    (∀ b, b < c.num_bands → b % c.num_threads < c.num_threads) := by
  have _ := hb
  refine ⟨?_, fun b _ => Nat.mod_lt _ ht⟩
  intro i hi
  obtain ⟨f, rfl⟩ : ∃ f, fuel = f + 1 := ⟨fuel - 1, by omega⟩
  obtain ⟨L, hL, hc, hw⟩ :=
    band_loop_visits c.num_bands c.num_threads ht hint f i (by omega)
  refine ⟨L, ?_, ?_, ?_, ?_⟩
  · have := hL []
    rw [List.nil_append] at this
    exact this
  · intro b hb
    have h1 : 0 < L.count b := List.count_pos_iff.2 hb
    rw [hc b] at h1
    by_contra hn
    rw [if_neg (fun h => hn h.2.1)] at h1
    exact absurd h1 (lt_irrefl 0)
  · intro b hb
    rw [hc b]
    have hm := @stride_iff_mod c.num_threads i b hi
    by_cases he : b % c.num_threads = i
    · rw [if_pos he, if_pos ⟨(hm.2 he).1, hb, (hm.2 he).2⟩]
    · rw [if_neg he, if_neg (fun h => he (hm.1 ⟨h.1, h.2.2⟩))]
  · intro κ α F bp hp hlen
    rw [band_worker_eq_loop F c hp]
    exact hw α (band_body F c.Fs c.num_bands c.filter_order c.num_samples c.data) bp hlen

/-- C1 amended, at 10 bands and 3 threads: worker 1 visits 1, 4 and 7. -/
theorem band_worker_partition_witness :
    band_worker_visits (main_args ⟨1000000, 64, 10, 3, 2, 0, []⟩ 1) 11 = result.ret [1, 4, 7] ∧
      ∃ visited : List Nat,
        band_worker_visits (main_args ⟨1000000, 64, 10, 3, 2, 0, []⟩ 1) 11 =
          result.ret (visited.map Int.ofNat) ∧
        (∀ b, b ∈ visited → b < 10) ∧
        (∀ b, b < 10 → visited.count b = if b % 3 = 1 then 1 else 0) :=
  ⟨by decide,
    let ⟨v, h1, h2, h3, _⟩ :=
      (band_worker_partition ⟨1000000, 64, 10, 3, 2, 0, []⟩ (by decide) (by decide)
        (by decide) 11 (by decide)).1 1 (by decide)
    ⟨v, h1, h2, h3⟩⟩

/-- C2, refuted as stated: with 2 bands and 2147483647 threads, run in index
order, worker 0 returns and worker 1 stores outside the array, so no array with
`band_power[b] = P(b)` is reached. -/
theorem main_scan_overflow_counterexample :
    1 ≤ 2 ∧ 1 ≤ 2147483647 ∧
      main_scan cutoff_recorder ⟨1000000, 64, 2, 2147483647, 1, 0, []⟩
        (List.range 2147483647) 4 = result.trap := by
  refine ⟨by decide, by decide, ?_⟩
  have hr : List.range 2147483647 = 0 :: 1 :: List.range' 2 2147483645 := by
    rw [List.range_eq_range', show (2147483647 : Nat) = 2147483645 + 1 + 1 from rfl,
      List.range'_succ, List.range'_succ]
  rw [main_scan, hr, main_scan_from]
  have h0 : band_worker cutoff_recorder (main_args ⟨1000000, 64, 2, 2147483647, 1, 0, []⟩ 0) 4
      (List.replicate 2 none) =
      result.ret [some (band_body cutoff_recorder 1000000 2 64 0 [] 0), none] := rfl
  rw [h0]
  exact main_scan_from_trap _ _ _ _ _ _ rfl

/-- C2, amended.  Thread-count independence, when `band += num_threads` cannot
overflow.  With `num_threads ≥ 1`, `num_procs ≥ 1`,
`num_bands + num_threads ≤ 2 ^ 31`, the workers run to completion in any order
and enough fuel, `main_scan` returns the array whose slot `b` holds the band
value of `b`, for every `b < num_bands`; the array is the same for every other
thread count and processor count under the same conditions, in any order; and
a worker with `thread_id ≥ num_bands` returns the array it was given. -/
theorem main_scan_thread_independent {κ α : Type} (F : filter_h κ α) (c : main_config)
    (hb : 1 ≤ c.num_bands) (ht : 1 ≤ c.num_threads) (hp : 1 ≤ c.num_procs)
    (hint : c.num_bands + c.num_threads ≤ 2147483648) (order : List Nat)
    (hperm : order.Perm (List.range c.num_threads)) (fuel : Nat)
    (hfuel : c.num_bands < fuel) :
    main_scan F c order fuel =
        result.ret ((List.range c.num_bands).map fun b =>
          some (band_body F c.Fs c.num_bands c.filter_order c.num_samples c.data b)) ∧
      (∀ (n p : Nat) (order1 : List Nat), 1 ≤ n → 1 ≤ p → c.num_bands + n ≤ 2147483648 →
        order1.Perm (List.range n) →
        main_scan F { c with num_threads := n, num_procs := p } order1 fuel =
          main_scan F c order fuel) ∧
      (∀ (i : Nat) (bp : List (Option α)), c.num_bands ≤ i →
        band_worker F (main_args c i) fuel bp = result.ret bp) := by
  have _ := hb
  refine ⟨main_scan_eq F c ht hp hint order hperm fuel hfuel, ?_, ?_⟩
  · intro n p order1 hn hp1 hint1 hperm1
    rw [main_scan_eq F c ht hp hint order hperm fuel hfuel,
      main_scan_eq F { c with num_threads := n, num_procs := p } hn hp1 hint1 order1 hperm1
        fuel hfuel]
  · intro i bp hi
    obtain ⟨f, rfl⟩ : ∃ f, fuel = f + 1 := ⟨fuel - 1, by omega⟩
    have : ¬ (i : Int) < (c.num_bands : Int) := by omega
    rw [band_worker_eq_loop F c hp, band_loop, if_neg this]

/-- C2 amended, at 4 bands: 8 threads finishing in a scrambled order and 4
threads in index order leave the same array, and worker 6 leaves the array as
it is. -/
theorem main_scan_thread_independent_witness :
    main_scan cutoff_recorder ⟨1000000, 64, 4, 4, 2, 0, []⟩ [0, 1, 2, 3] 5 =
        main_scan cutoff_recorder ⟨1000000, 64, 4, 8, 2, 0, []⟩ [7, 3, 1, 0, 2, 4, 5, 6] 5 ∧
      band_worker cutoff_recorder (main_args ⟨1000000, 64, 4, 8, 2, 0, []⟩ 6) 5
        [none, none, none, none] = result.ret [none, none, none, none] :=
  have h := main_scan_thread_independent cutoff_recorder ⟨1000000, 64, 4, 8, 2, 0, []⟩
    (by decide) (by decide) (by decide) (by decide) [7, 3, 1, 0, 2, 4, 5, 6] (by decide) 5
    (by decide)
  ⟨h.2.1 4 2 [0, 1, 2, 3] (by decide) (by decide) (by decide) (by decide),
    h.2.2 6 [none, none, none, none] (by decide)⟩

/-! ## Band geometry -/

theorem bandwidth_pos {Fs : ℚ} {num_bands : Nat} (hFs : 0 < Fs) (hnb : 0 < num_bands) :
    0 < bandwidth Fs num_bands := by
  unfold bandwidth
  have : (0 : ℚ) < (num_bands : ℚ) := by exact_mod_cast hnb
  positivity

theorem bandwidth_mul {Fs : ℚ} {num_bands : Nat} (hnb : 0 < num_bands) :
    (num_bands : ℚ) * bandwidth Fs num_bands = Fs / 2 := by
  unfold bandwidth
  have : (num_bands : ℚ) ≠ 0 := by exact_mod_cast hnb.ne'
  field_simp
  ring

/-- C3, refuted as stated: with `Fs = 1` and 5000 bands the bandwidth is
`0.0001`, and the worker hands the filter designer the cutoffs `0.0001` and
`0` for band 0, so the lower cutoff is not below the upper one. -/
theorem band_cutoffs_narrow_counterexample :
    (0 : ℚ) < 1 ∧ 0 < 5000 ∧
      band_body cutoff_recorder 1 5000 64 0 [] 0 = (0.0001, 0) ∧
      ¬ (band_low 1 5000 0 < band_high 1 5000 0) := by
  refine ⟨by norm_num, by norm_num, ?_, ?_⟩
  · simp only [band_body, cutoff_recorder, band_low, band_high, bandwidth]
    norm_num
  · simp only [band_low, band_high, bandwidth]
    norm_num

/-- C3, amended.  For `Fs > 0`, `num_bands > 0` and `b < num_bands`, the
cutoffs the worker hands to the filter designer are `band_low` and
`band_high`; the lower one is positive and the upper one is below `Fs / 2`;
the lower one is below the upper one exactly when the bandwidth exceeds
`0.0002`, and then the lower one is below `Fs / 2` and the upper one is
positive as well. -/
theorem band_cutoffs_valid (Fs : ℚ) (num_bands b : Nat) (hFs : 0 < Fs)
    (hnb : 0 < num_bands) (hb : b < num_bands) :
    (∀ (filter_order num_samples : Nat) (data : List ℚ),
      band_body cutoff_recorder Fs num_bands filter_order num_samples data b =
        (band_low Fs num_bands b, band_high Fs num_bands b)) ∧
      0 < band_low Fs num_bands b ∧
      band_high Fs num_bands b < Fs / 2 ∧
      (band_low Fs num_bands b < band_high Fs num_bands b ↔
        0.0002 < bandwidth Fs num_bands) ∧
      (0.0002 < bandwidth Fs num_bands →
        band_low Fs num_bands b < Fs / 2 ∧ 0 < band_high Fs num_bands b) := by
  have hw := bandwidth_pos hFs hnb
  have hm := @bandwidth_mul Fs num_bands hnb
  have hb0 : (0 : ℚ) ≤ (b : ℚ) := by positivity
  have hb1 : (b : ℚ) + 1 ≤ (num_bands : ℚ) := by exact_mod_cast hb
  have h1 : 0 ≤ (b : ℚ) * bandwidth Fs num_bands := mul_nonneg hb0 hw.le
  have h2 : ((b : ℚ) + 1) * bandwidth Fs num_bands ≤ Fs / 2 := by
    rw [← hm]
    exact mul_le_mul_of_nonneg_right hb1 hw.le
  refine ⟨fun _ _ _ => rfl, ?_, ?_, ?_, ?_⟩
  · unfold band_low
    norm_num
    linarith
  · unfold band_high
    norm_num
    linarith
  · unfold band_low band_high
    constructor
    · intro h
      norm_num at h ⊢
      linarith
    · intro h
      norm_num at h ⊢
      linarith
  · intro h
    unfold band_low band_high
    norm_num at h ⊢
    constructor <;> linarith

/-- C3 amended, at `Fs = 1000000`, 10 bands, band 2. -/
theorem band_cutoffs_valid_witness :
    band_low 1000000 10 2 < band_high 1000000 10 2 ∧
      0 < band_low 1000000 10 2 ∧ band_high 1000000 10 2 < 1000000 / 2 :=
  have h := band_cutoffs_valid 1000000 10 2 (by norm_num) (by decide) (by decide)
  ⟨h.2.2.2.1.2 (by norm_num [bandwidth]), h.2.1, h.2.2.1⟩

theorem band_high_lt_band_low {Fs : ℚ} {num_bands : Nat} (hFs : 0 < Fs) (hnb : 0 < num_bands)
    {b1 b2 : Nat} (h : b1 < b2) : band_high Fs num_bands b1 < band_low Fs num_bands b2 := by
  have hw := bandwidth_pos hFs hnb
  have h1 : (b1 : ℚ) + 1 ≤ (b2 : ℚ) := by exact_mod_cast h
  have h2 := mul_le_mul_of_nonneg_right h1 hw.le
  unfold band_high band_low
  norm_num
  linarith

/-- C4, refuted as stated: with `Fs = 1000000` and 10 bands the bandwidth is
`50000`, the frequency `100000` is inside `(0, Fs / 2)`, and it lies in the
interval of no band; the interval of band 2 starts at `100000.0001`. -/
theorem bands_gap_counterexample :
    bandwidth 1000000 10 = 50000 ∧ (0 : ℚ) < 100000 ∧ (100000 : ℚ) < 1000000 / 2 ∧
      (∀ b, b < 10 → ¬ in_band 1000000 10 b 100000) ∧
      band_low 1000000 10 2 = 100000.0001 := by
  refine ⟨by norm_num [bandwidth], by norm_num, by norm_num, ?_, by norm_num [band_low, bandwidth]⟩
  intro b hb
  interval_cases b <;> norm_num [in_band, band_low, band_high, bandwidth]

/-- C4, amended.  For `Fs > 0` and `num_bands > 0`: the interval of a band ends
before the interval of every later band starts; a frequency lies in the
interval of at most one band; and a frequency `f` in `(0, Fs / 2)` lies in the
interval of some band exactly when it is at least `0.0001` away from every
band edge `k * bandwidth`, `k ≤ num_bands`.  In particular, with
`Fs = 1000000` and 10 bands the bandwidth is `50000`, and `100000`, a band
edge, lies in the interval of no band. -/
theorem bands_partition (Fs : ℚ) (num_bands : Nat) (hFs : 0 < Fs) (hnb : 0 < num_bands) :
    (∀ b1 b2, b1 < b2 → band_high Fs num_bands b1 < band_low Fs num_bands b2) ∧
      (∀ (f : ℚ) (b1 b2 : Nat), in_band Fs num_bands b1 f → in_band Fs num_bands b2 f →
        b1 = b2) ∧
      (∀ f : ℚ, 0 < f → f < Fs / 2 →
        ((∃ b, b < num_bands ∧ in_band Fs num_bands b f) ↔
          ∀ k : Nat, k ≤ num_bands → 0.0001 ≤ |f - (k : ℚ) * bandwidth Fs num_bands|)) ∧
      (Fs = 1000000 → num_bands = 10 →
        bandwidth Fs num_bands = 50000 ∧
          ∀ b, b < num_bands → ¬ in_band Fs num_bands b 100000) := by
  have hw := bandwidth_pos hFs hnb
  have hm := @bandwidth_mul Fs num_bands hnb
  refine ⟨fun b1 b2 h => band_high_lt_band_low hFs hnb h, ?_, ?_, ?_⟩
  rotate_right
  · rintro rfl rfl
    refine ⟨by norm_num [bandwidth], ?_⟩
    intro b hb
    interval_cases b <;> norm_num [in_band, band_low, band_high, bandwidth]
  · intro f b1 b2 h1 h2
    rcases Nat.lt_trichotomy b1 b2 with h | h | h
    · have := band_high_lt_band_low hFs hnb h
      have : f < f := lt_of_le_of_lt h1.2 (lt_of_lt_of_le this h2.1)
      exact absurd this (lt_irrefl _)
    · exact h
    · have := band_high_lt_band_low hFs hnb h
      have : f < f := lt_of_le_of_lt h2.2 (lt_of_lt_of_le this h1.1)
      exact absurd this (lt_irrefl _)
  · intro f hf0 hf1
    constructor
    · rintro ⟨b, _, hlo, hhi⟩ k _
      unfold band_low at hlo
      unfold band_high at hhi
      norm_num at hlo hhi ⊢
      rcases Nat.lt_or_ge b k with h | h
      · have h1 : (b : ℚ) + 1 ≤ (k : ℚ) := by exact_mod_cast h
        have h2 := mul_le_mul_of_nonneg_right h1 hw.le
        rw [abs_sub_comm]
        refine le_trans ?_ (le_abs_self _)
        linarith
      · have h1 : (k : ℚ) ≤ (b : ℚ) := by exact_mod_cast h
        have h2 := mul_le_mul_of_nonneg_right h1 hw.le
        refine le_trans ?_ (le_abs_self _)
        linarith
    · intro h
      have hq : 0 ≤ f / bandwidth Fs num_bands := div_nonneg hf0.le hw.le
      have h1 : ((⌊f / bandwidth Fs num_bands⌋₊ : Nat) : ℚ) * bandwidth Fs num_bands ≤ f :=
        (le_div_iff₀ hw).1 (Nat.floor_le hq)
      have h2 : f < ((⌊f / bandwidth Fs num_bands⌋₊ : Nat) + 1 : ℚ) * bandwidth Fs num_bands :=
        (div_lt_iff₀ hw).1 (Nat.lt_floor_add_one _)
      have h3 : ⌊f / bandwidth Fs num_bands⌋₊ < num_bands := by
        have : ((⌊f / bandwidth Fs num_bands⌋₊ : Nat) : ℚ) * bandwidth Fs num_bands
            < (num_bands : ℚ) * bandwidth Fs num_bands := by
          rw [hm]; linarith
        have := lt_of_mul_lt_mul_right this hw.le
        exact_mod_cast this
      refine ⟨⌊f / bandwidth Fs num_bands⌋₊, h3, ?_, ?_⟩
      · have h4 := h ⌊f / bandwidth Fs num_bands⌋₊ h3.le
        rw [abs_of_nonneg (by linarith)] at h4
        unfold band_low
        norm_num at h4 ⊢
        linarith
      · have h4 := h (⌊f / bandwidth Fs num_bands⌋₊ + 1) h3
        rw [abs_sub_comm, abs_of_nonneg (by push_cast; linarith)] at h4
        unfold band_high
        push_cast at h4
        norm_num at h4 ⊢
        linarith

/-- C4 amended, at `Fs = 1000000`, 10 bands: `120000` lies in the interval of
band 2 and of no other band. -/
theorem bands_partition_witness :
    (0 : ℚ) < 1000000 ∧ 0 < 10 ∧ in_band 1000000 10 2 120000 ∧
      ∀ b, in_band 1000000 10 b 120000 → b = 2 :=
  have h2 : in_band 1000000 10 2 120000 := by
    norm_num [in_band, band_low, band_high, bandwidth]
  ⟨by norm_num, by decide, h2,
    fun b hb => (bands_partition 1000000 10 (by norm_num) (by decide)).2.1 120000 b 2 hb h2⟩

/-! ## Preprocessing -/

/-- A list is the list of its entries, read by index. -/
theorem map_getD_range (l : List ℚ) : (List.range l.length).map (fun i => l.getD i 0) = l := by
  apply List.ext_getElem
  · simp
  · intro i h1 h2
    simp [List.getD_eq_getElem?_getD, List.getElem?_eq_getElem h2]

/-- A summing loop over the indices in `is` adds the entries read. -/
theorem foldl_add_getD (l : List ℚ) (is : List Nat) (a : ℚ) :
    is.foldl (fun sum i => sum + l.getD i 0) a = a + (is.map (fun i => l.getD i 0)).sum := by
  induction is generalizing a with
  | nil => simp
  | cons i is ih =>
    rw [List.foldl_cons, ih, List.map_cons, List.sum_cons, add_assoc]

/-- The second loop of `remove_dc`, run for `n` iterations: entry `j` has had
`avg` subtracted when `j < n` and is unchanged otherwise. -/
theorem remove_dc_loop (avg : ℚ) (data : List ℚ) (n : Nat) :
    ((List.range n).foldl (fun data i => data.set i (data.getD i 0 - avg)) data).length
        = data.length ∧
      ∀ j, ((List.range n).foldl (fun data i => data.set i (data.getD i 0 - avg)) data)[j]? =
        if j < n then data[j]?.map (fun x => x - avg) else data[j]? := by
  induction n with
  | zero => simp
  | succ n ih =>
    rw [List.range_succ, List.foldl_append]
    simp only [List.foldl_cons, List.foldl_nil]
    refine ⟨by rw [List.length_set, ih.1], ?_⟩
    intro j
    rw [List.getElem?_set, ih.1, ih.2 j, List.getD_eq_getElem?_getD, ih.2 n]
    by_cases hj : n = j
    · subst hj
      by_cases hl : n < data.length
      · simp [hl, List.getElem?_eq_getElem hl]
      · simp [hl, List.getElem?_eq_none (not_lt.1 hl)]
    · rw [if_neg hj]
      by_cases h1 : j < n
      · rw [if_pos h1, if_pos (by omega)]
      · rw [if_neg h1, if_neg (by omega)]

/-- On a whole buffer `remove_dc` subtracts the mean from every sample. -/
theorem remove_dc_eq_map (data : List ℚ) :
    remove_dc data data.length = data.map (fun x => x - mean data) := by
  have hsum : (List.range data.length).foldl (fun sum i => sum + data.getD i 0) 0 = data.sum := by
    rw [foldl_add_getD, map_getD_range, zero_add]
  unfold remove_dc
  simp only [hsum]
  have h := remove_dc_loop (data.sum / (data.length : ℚ)) data data.length
  apply List.ext_getElem?
  intro j
  rw [h.2 j, List.getElem?_map]
  by_cases hj : j < data.length
  · rw [if_pos hj]; rfl
  · rw [if_neg hj, List.getElem?_eq_none (not_lt.1 hj)]; rfl

/-- C5. DC removal.  On a non-empty buffer, `remove_dc` keeps the length,
replaces sample `i` by that sample minus the arithmetic mean of the original
samples, and the arithmetic mean of the result is zero. -/
theorem remove_dc_spec (data : List ℚ) (num : Nat) (hlen : data.length = num)
    (hnum : 1 ≤ num) :
    (remove_dc data num).length = num ∧
      (∀ i, i < num → (remove_dc data num)[i]? = some (data.getD i 0 - mean data)) ∧
      mean (remove_dc data num) = 0 := by
  subst hlen
  rw [remove_dc_eq_map]
  have hne : (data.length : ℚ) ≠ 0 := by
    have : 0 < data.length := hnum
    exact_mod_cast this.ne'
  refine ⟨by simp, ?_, ?_⟩
  · intro i hi
    simp [List.getElem?_map, List.getElem?_eq_getElem hi, List.getD_eq_getElem?_getD]
  · have hs : ∀ (a : ℚ) (l : List ℚ),
        (l.map (fun x => x - a)).sum = l.sum - (l.length : ℚ) * a := by
      intro a l
      induction l with
      | nil => simp
      | cons x l ih =>
        simp only [List.map_cons, List.sum_cons, List.length_cons, ih]
        push_cast
        ring
    unfold mean
    rw [hs, List.length_map]
    field_simp

/-- C5, on the buffer `1, 2, 3, 6` of mean `3`. -/
theorem remove_dc_spec_witness :
    remove_dc [1, 2, 3, 6] 4 = [-2, -1, 0, 3] ∧ mean (remove_dc [1, 2, 3, 6] 4) = 0 :=
  ⟨by norm_num [remove_dc, List.range, List.range.loop],
    (remove_dc_spec [1, 2, 3, 6] 4 rfl (by decide)).2.2⟩

/-! ## The analysis pass -/

theorem report_band_labels (Fs : ℚ) (nb : Nat) (bp : List ℚ) (mx avg : ℚ) (st : report_state)
    (b : Nat) :
    (report_band Fs nb bp mx avg st b).labels =
      st.labels ++ [if anomalous Fs nb bp avg b then label.WOW else label.meh] := by
  unfold report_band anomalous
  by_cases h1 : in_window (band_low Fs nb b) (band_high Fs nb b)
  · by_cases h2 : bp.getD b 0 > THRESHOLD * avg <;>
      simp [h1, h2, -List.getD_eq_getElem?_getD]
  · simp [h1]

theorem report_band_divisors (Fs : ℚ) (nb : Nat) (bp : List ℚ) (mx avg : ℚ)
    (st : report_state) (b : Nat) :
    (report_band Fs nb bp mx avg st b).divisors = st.divisors ++ [mx] := by
  unfold report_band
  by_cases h1 : in_window (band_low Fs nb b) (band_high Fs nb b)
  · by_cases h2 : bp.getD b 0 > THRESHOLD * avg <;>
      simp [h1, h2, -List.getD_eq_getElem?_getD]
  · simp [h1]

theorem report_band_wow (Fs : ℚ) (nb : Nat) (bp : List ℚ) (mx avg : ℚ) (st : report_state)
    (b : Nat) :
    (report_band Fs nb bp mx avg st b).wow =
      if anomalous Fs nb bp avg b then true else st.wow := by
  unfold report_band anomalous
  by_cases h1 : in_window (band_low Fs nb b) (band_high Fs nb b)
  · by_cases h2 : bp.getD b 0 > THRESHOLD * avg <;>
      simp [h1, h2, -List.getD_eq_getElem?_getD]
  · simp [h1]

theorem report_band_lb (Fs : ℚ) (nb : Nat) (bp : List ℚ) (mx avg : ℚ) (st : report_state)
    (b : Nat) :
    (report_band Fs nb bp mx avg st b).lb =
      if anomalous Fs nb bp avg b then (if st.lb < 0 then band_low Fs nb b else st.lb)
      else st.lb := by
  unfold report_band anomalous
  by_cases h1 : in_window (band_low Fs nb b) (band_high Fs nb b)
  · by_cases h2 : bp.getD b 0 > THRESHOLD * avg <;>
      simp [h1, h2, -List.getD_eq_getElem?_getD]
  · simp [h1]

theorem report_band_ub (Fs : ℚ) (nb : Nat) (bp : List ℚ) (mx avg : ℚ) (st : report_state)
    (b : Nat) :
    (report_band Fs nb bp mx avg st b).ub =
      if anomalous Fs nb bp avg b then band_high Fs nb b else st.ub := by
  unfold report_band anomalous
  by_cases h1 : in_window (band_low Fs nb b) (band_high Fs nb b)
  · by_cases h2 : bp.getD b 0 > THRESHOLD * avg <;>
      simp [h1, h2, -List.getD_eq_getElem?_getD]
  · simp [h1]

/-- The labels and the divisors after `n` iterations of the report loop. -/
theorem report_loop_labels (Fs : ℚ) (nb : Nat) (bp : List ℚ) (mx avg : ℚ)
    (init : report_state) (n : Nat) :
    ((List.range n).foldl (report_band Fs nb bp mx avg) init).labels =
        init.labels ++
          (List.range n).map
            (fun b => if anomalous Fs nb bp avg b then label.WOW else label.meh) ∧
      ((List.range n).foldl (report_band Fs nb bp mx avg) init).divisors =
        init.divisors ++ List.replicate n mx := by
  induction n with
  | zero => simp
  | succ n ih =>
    rw [List.range_succ, List.foldl_append]
    simp only [List.foldl_cons, List.foldl_nil]
    rw [report_band_labels, report_band_divisors, ih.1, ih.2]
    constructor
    · simp
    · rw [List.replicate_succ', List.append_assoc]

theorem band_low_pos {Fs : ℚ} (hFs : 0 < Fs) (nb b : Nat) : 0 < band_low Fs nb b := by
  have hw : 0 ≤ bandwidth Fs nb := by
    unfold bandwidth
    positivity
  have hb0 : (0 : ℚ) ≤ (b : ℚ) := by positivity
  have := mul_nonneg hb0 hw
  unfold band_low
  norm_num
  linarith

/-- The locals `wow`, `lb`, `ub` after `n` iterations of the report loop
started as `main` starts it: either no band below `n` is anomalous and the
locals are untouched, or `lb` is the lower cutoff of the first anomalous band
and `ub` the upper cutoff of the last one. -/
theorem report_loop_range (Fs : ℚ) (hFs : 0 < Fs) (nb : Nat) (bp : List ℚ) (mx avg : ℚ)
    (init : report_state) (hw : init.wow = false) (hl : init.lb = -1) (hu : init.ub = -1)
    (n : Nat) :
    (((List.range n).foldl (report_band Fs nb bp mx avg) init).wow = false ∧
        ((List.range n).foldl (report_band Fs nb bp mx avg) init).lb = -1 ∧
        ((List.range n).foldl (report_band Fs nb bp mx avg) init).ub = -1 ∧
        ∀ b, b < n → ¬ anomalous Fs nb bp avg b) ∨
      (((List.range n).foldl (report_band Fs nb bp mx avg) init).wow = true ∧
        ∃ first last, first ≤ last ∧ last < n ∧
          anomalous Fs nb bp avg first ∧ anomalous Fs nb bp avg last ∧
          (∀ b, b < n → anomalous Fs nb bp avg b → first ≤ b ∧ b ≤ last) ∧
          ((List.range n).foldl (report_band Fs nb bp mx avg) init).lb = band_low Fs nb first ∧
          ((List.range n).foldl (report_band Fs nb bp mx avg) init).ub =
            band_high Fs nb last) := by
  induction n with
  | zero =>
    left
    exact ⟨hw, hl, hu, fun b hb => absurd hb (Nat.not_lt_zero b)⟩
  | succ n ih =>
    rw [List.range_succ, List.foldl_append]
    simp only [List.foldl_cons, List.foldl_nil]
    rw [report_band_wow, report_band_lb, report_band_ub]
    by_cases ha : anomalous Fs nb bp avg n
    · right
      simp only [if_pos ha]
      rcases ih with ⟨_, h2, _, h4⟩ | ⟨_, first, last, h1, h2, h3, _, h5, h6, _⟩
      · refine ⟨trivial, n, n, le_refl _, Nat.lt_succ_self _, ha, ha, ?_, ?_, rfl⟩
        · intro b hb hab
          rcases Nat.lt_succ_iff_lt_or_eq.1 hb with h | h
          · exact absurd hab (h4 b h)
          · exact ⟨h.ge, h.le⟩
        · rw [h2, if_pos (by norm_num)]
      · refine ⟨trivial, first, n, by omega, Nat.lt_succ_self _, h3, ha, ?_, ?_, rfl⟩
        · intro b hb hab
          rcases Nat.lt_succ_iff_lt_or_eq.1 hb with h | h
          · exact ⟨(h5 b h hab).1, by omega⟩
          · exact ⟨by omega, h.le⟩
        · rw [h6, if_neg (not_lt.2 (band_low_pos hFs nb first).le)]
    · simp only [if_neg ha]
      rcases ih with ⟨h1, h2, h3, h4⟩ | ⟨h0, first, last, h1, h2, h3, h4, h5, h6, h7⟩
      · left
        refine ⟨h1, h2, h3, ?_⟩
        intro b hb
        rcases Nat.lt_succ_iff_lt_or_eq.1 hb with h | h
        · exact h4 b h
        · rw [h]; exact ha
      · right
        refine ⟨h0, first, last, h1, by omega, h3, h4, ?_, h6, h7⟩
        intro b hb hab
        rcases Nat.lt_succ_iff_lt_or_eq.1 hb with h | h
        · exact h5 b h hab
        · rw [h] at hab; exact absurd hab ha

/-- The statistics loop: the second component is the sum of the entries. -/
theorem main_stats_sum (nb : Nat) (bp : List ℚ) (hlen : bp.length = nb) (hnb : 1 ≤ nb) :
    (main_stats nb bp).2 = bp.sum := by
  have hgen : ∀ (is : List Nat) (s : ℚ × ℚ),
      (is.foldl
        (fun s i =>
          (if bp.getD i 0 > s.1 then bp.getD i 0 else s.1, s.2 + bp.getD i 0)) s).2 =
        s.2 + (is.map (fun i => bp.getD i 0)).sum := by
    intro is
    induction is with
    | nil => intro s; simp
    | cons i is ih =>
      intro s
      rw [List.foldl_cons, ih, List.map_cons, List.sum_cons, add_assoc]
  obtain ⟨m, rfl⟩ : ∃ m, nb = m + 1 := ⟨nb - 1, by omega⟩
  unfold main_stats
  rw [hgen]
  have h1 : List.range (m + 1) = 0 :: List.range' 1 m := by
    rw [List.range_eq_range', List.range'_succ]
  have h2 := map_getD_range bp
  rw [hlen, h1, List.map_cons] at h2
  have h3 := congrArg List.sum h2
  rw [List.sum_cons] at h3
  simpa using h3

/-- The statistics loop on an all-zero array: the maximum is zero. -/
theorem main_stats_max_zero (nb : Nat) (bp : List ℚ) (hz : ∀ x, x ∈ bp → x = 0) :
    (main_stats nb bp).1 = 0 := by
  have hg : ∀ i, bp.getD i 0 = 0 := by
    intro i
    rw [List.getD_eq_getElem?_getD]
    by_cases hi : i < bp.length
    · rw [List.getElem?_eq_getElem hi]
      exact hz _ (List.getElem_mem hi)
    · rw [List.getElem?_eq_none (not_lt.1 hi)]
      rfl
  have hgen : ∀ (is : List Nat) (s : ℚ × ℚ), s.1 = 0 →
      (is.foldl
        (fun s i =>
          (if bp.getD i 0 > s.1 then bp.getD i 0 else s.1, s.2 + bp.getD i 0)) s).1 = 0 := by
    intro is
    induction is with
    | nil => intro s hs; simpa using hs
    | cons i is ih =>
      intro s hs
      rw [List.foldl_cons]
      apply ih
      simp [hg, hs, -List.getD_eq_getElem?_getD]
  unfold main_stats
  exact hgen _ _ (hg 0)

theorem main_analysis_avg (Fs : ℚ) (nb : Nat) (bp : List ℚ) :
    (main_analysis Fs nb bp).avg_band_power = (main_stats nb bp).2 / (nb : ℚ) := by
  unfold main_analysis
  simp only
  split <;> rfl

theorem main_analysis_max (Fs : ℚ) (nb : Nat) (bp : List ℚ) :
    (main_analysis Fs nb bp).max_band_power = (main_stats nb bp).1 := by
  unfold main_analysis
  simp only
  split <;> rfl

theorem main_analysis_final (Fs : ℚ) (nb : Nat) (bp : List ℚ) :
    (main_analysis Fs nb bp).final =
      (List.range nb).foldl
        (report_band Fs nb bp (main_stats nb bp).1 ((main_stats nb bp).2 / (nb : ℚ)))
        { lb := -1, ub := -1, wow := false, labels := []
          divisors := [2, (nb : ℚ), (nb : ℚ)] } := by
  unfold main_analysis
  simp only
  split <;> rfl

theorem main_analysis_verdict (Fs : ℚ) (nb : Nat) (bp : List ℚ) :
    (main_analysis Fs nb bp).verdict =
      if (main_analysis Fs nb bp).final.wow then
        verdict.possible_aliens (main_analysis Fs nb bp).final.lb
          (main_analysis Fs nb bp).final.ub
          (((main_analysis Fs nb bp).final.ub + (main_analysis Fs nb bp).final.lb) / 2)
      else verdict.no_aliens := by
  rw [main_analysis_final]
  unfold main_analysis
  simp only
  split <;> rename_i h
  · simp [h]
    norm_num
  · simp [h]

theorem main_analysis_divisors (Fs : ℚ) (nb : Nat) (bp : List ℚ) :
    (main_analysis Fs nb bp).divisors =
      if (main_analysis Fs nb bp).final.wow then (main_analysis Fs nb bp).final.divisors ++ [2]
      else (main_analysis Fs nb bp).final.divisors := by
  rw [main_analysis_final]
  unfold main_analysis
  simp only
  split <;> rename_i h
  · simp [h]
    norm_num
  · simp [h]

theorem main_analysis_avg_eq_mean (Fs : ℚ) (nb : Nat) (bp : List ℚ) (hlen : bp.length = nb)
    (hnb : 1 ≤ nb) : (main_analysis Fs nb bp).avg_band_power = mean bp := by
  rw [main_analysis_avg, main_stats_sum nb bp hlen hnb, mean, hlen]

/-- The label the report loop prints for band `b`. -/
theorem main_analysis_label (Fs : ℚ) (nb : Nat) (bp : List ℚ) (b : Nat) (hb : b < nb) :
    (main_analysis Fs nb bp).final.labels[b]? =
      some (if anomalous Fs nb bp (main_analysis Fs nb bp).avg_band_power b then label.WOW
        else label.meh) := by
  rw [main_analysis_final, main_analysis_avg, (report_loop_labels _ _ _ _ _ _ _).1]
  simp [hb]

theorem band_low_mono {Fs : ℚ} (hFs : 0 < Fs) (nb : Nat) {b1 b2 : Nat} (h : b1 ≤ b2) :
    band_low Fs nb b1 ≤ band_low Fs nb b2 ∧ band_high Fs nb b1 ≤ band_high Fs nb b2 := by
  have hw : 0 ≤ bandwidth Fs nb := by
    unfold bandwidth
    positivity
  have h1 : (b1 : ℚ) ≤ (b2 : ℚ) := by exact_mod_cast h
  have h2 := mul_le_mul_of_nonneg_right h1 hw
  unfold band_low band_high
  constructor <;> linarith

/-- C7. Reported anomalous range.  For `Fs > 0` and a band power array of
length `num_bands ≥ 1`: when some band is classified anomalous, there are a
first and a last anomalous band, every anomalous band lies between them (so
the anomalous bands need not be contiguous), `wow` is set, `lb` is the lower
cutoff of the first one, which is the lowest lower cutoff among the anomalous
bands, `ub` is the upper cutoff of the last one, which is the highest upper
cutoff among them, and the verdict reports `lb`, `ub` and `(ub + lb) / 2`;
when no band is anomalous the verdict is `no aliens`. -/
theorem main_analysis_range (Fs : ℚ) (num_bands : Nat) (band_power : List ℚ) (hFs : 0 < Fs)
    (hlen : band_power.length = num_bands) (hnb : 1 ≤ num_bands) :
    ((∃ b, b < num_bands ∧ anomalous Fs num_bands band_power (mean band_power) b) →
      ∃ first last, first ≤ last ∧ last < num_bands ∧
        anomalous Fs num_bands band_power (mean band_power) first ∧
        anomalous Fs num_bands band_power (mean band_power) last ∧
        (∀ b, b < num_bands → anomalous Fs num_bands band_power (mean band_power) b →
          first ≤ b ∧ b ≤ last ∧
          band_low Fs num_bands first ≤ band_low Fs num_bands b ∧
          band_high Fs num_bands b ≤ band_high Fs num_bands last) ∧
        (main_analysis Fs num_bands band_power).final.wow = true ∧
        (main_analysis Fs num_bands band_power).final.lb = band_low Fs num_bands first ∧
        (main_analysis Fs num_bands band_power).final.ub = band_high Fs num_bands last ∧
        (main_analysis Fs num_bands band_power).verdict =
          verdict.possible_aliens (band_low Fs num_bands first) (band_high Fs num_bands last)
            ((band_high Fs num_bands last + band_low Fs num_bands first) / 2)) ∧
      ((∀ b, b < num_bands → ¬ anomalous Fs num_bands band_power (mean band_power) b) →
        (main_analysis Fs num_bands band_power).verdict = verdict.no_aliens) := by
  have havg : (main_stats num_bands band_power).2 / (num_bands : ℚ) = mean band_power := by
    rw [main_stats_sum num_bands band_power hlen hnb, mean, hlen]
  have hloop := report_loop_range Fs hFs num_bands band_power (main_stats num_bands band_power).1
    (mean band_power)
    { lb := -1, ub := -1, wow := false, labels := []
      divisors := [2, (num_bands : ℚ), (num_bands : ℚ)] } rfl rfl rfl num_bands
  have hfin := main_analysis_final Fs num_bands band_power
  rw [havg] at hfin
  rw [← hfin] at hloop
  have hv := main_analysis_verdict Fs num_bands band_power
  constructor
  · rintro ⟨b, hb, hab⟩
    rcases hloop with ⟨_, _, _, h4⟩ | ⟨h0, first, last, h1, h2, h3, h4, h5, h6, h7⟩
    · exact absurd hab (h4 b hb)
    · refine ⟨first, last, h1, h2, h3, h4, ?_, h0, h6, h7, ?_⟩
      · intro b hb hab
        have := h5 b hb hab
        exact ⟨this.1, this.2, (band_low_mono hFs num_bands this.1).1,
          (band_low_mono hFs num_bands this.2).2⟩
      · rw [hv, if_pos h0, h6, h7]
  · intro hno
    rcases hloop with ⟨h1, _, _, _⟩ | ⟨_, first, last, h1, h2, h3, _⟩
    · rw [hv, h1]
      rfl
    · exact absurd h3 (hno first (lt_of_le_of_lt h1 h2))

/-- C7, at `Fs = 500000` and 10 bands with power in bands 2 and 4 only: the
reported range runs from the lower cutoff of band 2 to the upper cutoff of
band 4, across band 3. -/
theorem main_analysis_range_witness :
    (main_analysis 500000 10 [0, 0, 9, 0, 9, 0, 0, 0, 0, 0]).verdict =
        verdict.possible_aliens 50000.0001 124999.9999 87500 ∧
      ∃ first last, first ≤ last ∧ last < 10 ∧
        (main_analysis 500000 10 [0, 0, 9, 0, 9, 0, 0, 0, 0, 0]).final.lb =
          band_low 500000 10 first ∧
        (main_analysis 500000 10 [0, 0, 9, 0, 9, 0, 0, 0, 0, 0]).final.ub =
          band_high 500000 10 last :=
  ⟨by
    simp [main_analysis, main_stats, report_band, in_window, band_low, band_high, bandwidth,
      List.range, List.range.loop, List.range', THRESHOLD, ALIENS_LOW, ALIENS_HIGH]
    norm_num,
    let ⟨first, last, h1, h2, _, _, _, _, h7, h8, _⟩ :=
      (main_analysis_range 500000 10 [0, 0, 9, 0, 9, 0, 0, 0, 0, 0] (by norm_num) rfl
        (by decide)).1
        ⟨2, by decide, by
          norm_num [anomalous, in_window, band_low, band_high, bandwidth, ALIENS_LOW,
            ALIENS_HIGH, THRESHOLD, mean]⟩
    ⟨first, last, h1, h2, h7, h8⟩⟩

/-- No band of an all-zero array is anomalous, whatever the average is taken
to be, as long as it is zero. -/
theorem not_anomalous_of_zero (Fs : ℚ) (nb : Nat) (bp : List ℚ) (hz : ∀ x, x ∈ bp → x = 0)
    (b : Nat) : ¬ anomalous Fs nb bp 0 b := by
  have hg : bp.getD b 0 = 0 := by
    rw [List.getD_eq_getElem?_getD]
    by_cases hi : b < bp.length
    · rw [List.getElem?_eq_getElem hi]
      exact hz _ (List.getElem_mem hi)
    · rw [List.getElem?_eq_none (not_lt.1 hi)]
      rfl
  rintro ⟨_, h⟩
  rw [hg, mul_zero] at h
  exact lt_irrefl _ h

theorem mean_zero_of_zero (bp : List ℚ) (hz : ∀ x, x ∈ bp → x = 0) : mean bp = 0 := by
  have : bp.sum = 0 := List.sum_eq_zero hz
  rw [mean, this, zero_div]

/-- On an all-zero array of length `num_bands ≥ 1` the report loop runs with
`max_band_power = 0` and `avg_band_power = 0`, and it never sets `wow`. -/
theorem main_analysis_all_zero (Fs : ℚ) (num_bands : Nat) (band_power : List ℚ)
    (hlen : band_power.length = num_bands) (hnb : 1 ≤ num_bands)
    (hz : ∀ x, x ∈ band_power → x = 0) :
    (main_analysis Fs num_bands band_power).final =
        (List.range num_bands).foldl (report_band Fs num_bands band_power 0 0)
          { lb := -1, ub := -1, wow := false, labels := []
            divisors := [2, (num_bands : ℚ), (num_bands : ℚ)] } ∧
      (main_analysis Fs num_bands band_power).final.wow = false := by
  have havg2 : (main_stats num_bands band_power).2 / (num_bands : ℚ) = 0 := by
    rw [← main_analysis_avg Fs, main_analysis_avg_eq_mean Fs num_bands band_power hlen hnb,
      mean_zero_of_zero band_power hz]
  have hfin := main_analysis_final Fs num_bands band_power
  rw [havg2, main_stats_max_zero num_bands band_power hz] at hfin
  have hgen : ∀ n, ((List.range n).foldl (report_band Fs num_bands band_power 0 0)
      { lb := -1, ub := -1, wow := false, labels := []
        divisors := [2, (num_bands : ℚ), (num_bands : ℚ)] }).wow = false := by
    intro n
    induction n with
    | zero => rfl
    | succ n ih =>
      rw [List.range_succ, List.foldl_append]
      simp only [List.foldl_cons, List.foldl_nil]
      rw [report_band_wow, if_neg (not_anomalous_of_zero Fs num_bands band_power hz n), ih]
  refine ⟨hfin, ?_⟩
  rw [hfin]
  exact hgen num_bands

/-- C8, evaluated on the code.  On an all-zero band power array of length
`num_bands ≥ 1`, `max_band_power` and `avg_band_power` are zero, and the
divisors of the analysis pass are `2`, `num_bands`, `num_bands` followed by
`max_band_power = 0` once per band: the bar of every band divides by zero. -/
theorem main_analysis_zero_divisor (Fs : ℚ) (num_bands : Nat) (band_power : List ℚ)
    (hlen : band_power.length = num_bands) (hnb : 1 ≤ num_bands)
    (hz : ∀ x, x ∈ band_power → x = 0) :
    (main_analysis Fs num_bands band_power).max_band_power = 0 ∧
      (main_analysis Fs num_bands band_power).avg_band_power = 0 ∧
      (main_analysis Fs num_bands band_power).divisors =
        [2, (num_bands : ℚ), (num_bands : ℚ)] ++ List.replicate num_bands 0 ∧
      (0 : ℚ) ∈ (main_analysis Fs num_bands band_power).divisors := by
  have hmax : (main_analysis Fs num_bands band_power).max_band_power = 0 := by
    rw [main_analysis_max, main_stats_max_zero num_bands band_power hz]
  have havg : (main_analysis Fs num_bands band_power).avg_band_power = 0 := by
    rw [main_analysis_avg_eq_mean Fs num_bands band_power hlen hnb,
      mean_zero_of_zero band_power hz]
  obtain ⟨hfin, hwow⟩ := main_analysis_all_zero Fs num_bands band_power hlen hnb hz
  have hdiv : (main_analysis Fs num_bands band_power).divisors =
      [2, (num_bands : ℚ), (num_bands : ℚ)] ++ List.replicate num_bands 0 := by
    rw [main_analysis_divisors, hwow, hfin, (report_loop_labels _ _ _ _ _ _ _).2]
    rfl
  refine ⟨hmax, havg, hdiv, ?_⟩
  rw [hdiv]
  apply List.mem_append_right
  obtain ⟨m, rfl⟩ : ∃ m, num_bands = m + 1 := ⟨num_bands - 1, by omega⟩
  rw [List.replicate_succ]
  exact List.mem_cons_self _ _

/-- C8, at the all-zero array of 4 bands: the report loop divides by zero
four times, and the verdict is `no aliens`. -/
theorem main_analysis_zero_divisor_witness :
    (main_analysis 1000000 4 [0, 0, 0, 0]).divisors = [2, 4, 4, 0, 0, 0, 0] ∧
      (main_analysis 1000000 4 [0, 0, 0, 0]).max_band_power = 0 :=
  have h := main_analysis_zero_divisor 1000000 4 [0, 0, 0, 0] rfl (by decide) (by simp)
  ⟨by simpa [List.replicate] using h.2.2.1, h.1⟩

/-! ## The window test -/

/-- C9, refuted as stated: with `Fs = 1000000` and 2 bands, band 0 is the
interval from `0.0001` to `249999.9999`; it contains the window, so the two
intervals overlap, and the in-window test fails. -/
theorem in_window_containing_counterexample :
    band_low 1000000 2 0 = 0.0001 ∧ band_high 1000000 2 0 = 249999.9999 ∧
      overlaps_window (band_low 1000000 2 0) (band_high 1000000 2 0) ∧
      ¬ in_window (band_low 1000000 2 0) (band_high 1000000 2 0) := by
  refine ⟨by norm_num [band_low, bandwidth], by norm_num [band_high, bandwidth], ?_, ?_⟩
  · refine ⟨100000, ?_⟩
    norm_num [band_low, band_high, bandwidth, ALIENS_LOW, ALIENS_HIGH]
  · norm_num [in_window, band_low, band_high, bandwidth, ALIENS_LOW, ALIENS_HIGH]

/-- C9, amended.  For a band whose lower cutoff is not above its upper cutoff,
the in-window test holds exactly when the interval of the band overlaps the
window and does not reach beyond the window on both sides. -/
theorem in_window_iff_overlap (Fs : ℚ) (num_bands b : Nat)
    (hle : band_low Fs num_bands b ≤ band_high Fs num_bands b) :
    in_window (band_low Fs num_bands b) (band_high Fs num_bands b) ↔
      overlaps_window (band_low Fs num_bands b) (band_high Fs num_bands b) ∧
        ¬ (band_low Fs num_bands b < ALIENS_LOW ∧ ALIENS_HIGH < band_high Fs num_bands b) := by
  unfold in_window overlaps_window
  have hwin : ALIENS_LOW ≤ ALIENS_HIGH := by norm_num [ALIENS_LOW, ALIENS_HIGH]
  constructor
  · rintro (⟨h1, h2⟩ | ⟨h1, h2⟩)
    · exact ⟨⟨_, ⟨le_refl _, hle⟩, h1, h2⟩, fun h => absurd h.1 (not_lt.2 h1)⟩
    · exact ⟨⟨_, ⟨hle, le_refl _⟩, h1, h2⟩, fun h => absurd h.2 (not_lt.2 h2)⟩
  · rintro ⟨⟨f, ⟨h1, h2⟩, h3, h4⟩, hn⟩
    by_cases hlo : band_low Fs num_bands b < ALIENS_LOW
    · right
      refine ⟨le_trans h3 h2, ?_⟩
      by_contra hc
      exact hn ⟨hlo, not_le.1 hc⟩
    · left
      exact ⟨not_lt.1 hlo, le_trans h1 h4⟩

/-- C9 amended, at `Fs = 1000000`, 10 bands, band 1. -/
theorem in_window_iff_overlap_witness :
    band_low 1000000 10 1 ≤ band_high 1000000 10 1 ∧
      (in_window (band_low 1000000 10 1) (band_high 1000000 10 1) ↔
        overlaps_window (band_low 1000000 10 1) (band_high 1000000 10 1) ∧
          ¬ (band_low 1000000 10 1 < ALIENS_LOW ∧ ALIENS_HIGH < band_high 1000000 10 1)) :=
  ⟨by norm_num [band_low, band_high, bandwidth],
    in_window_iff_overlap 1000000 10 1 (by norm_num [band_low, band_high, bandwidth])⟩

/-! ## Rounding to binary64 -/

theorem round_half_even_of_lt (x : ℚ) (f : ℤ) (h1 : (f : ℚ) ≤ x) (h2 : x < (f : ℚ) + 1 / 2) :
    round_half_even x = f := by
  have hf : ⌊x⌋ = f := Int.floor_eq_iff.2 ⟨h1, by linarith⟩
  unfold round_half_even
  rw [hf, if_pos (by linarith)]

theorem round_half_even_of_gt (x : ℚ) (f : ℤ) (h1 : (f : ℚ) + 1 / 2 < x)
    (h2 : x < (f : ℚ) + 1) : round_half_even x = f + 1 := by
  have hf : ⌊x⌋ = f := Int.floor_eq_iff.2 ⟨by linarith, h2⟩
  unfold round_half_even
  rw [hf, if_neg (by linarith), if_pos (by linarith)]

theorem round_half_even_tie_even (x : ℚ) (f : ℤ) (h : x = (f : ℚ) + 1 / 2) (he : f % 2 = 0) :
    round_half_even x = f := by
  have hf : ⌊x⌋ = f := Int.floor_eq_iff.2 ⟨by linarith, by linarith⟩
  unfold round_half_even
  rw [hf, if_neg (by linarith), if_neg (by linarith), if_pos he]

theorem round_half_even_tie_odd (x : ℚ) (f : ℤ) (h : x = (f : ℚ) + 1 / 2) (ho : ¬ f % 2 = 0) :
    round_half_even x = f + 1 := by
  have hf : ⌊x⌋ = f := Int.floor_eq_iff.2 ⟨by linarith, by linarith⟩
  unfold round_half_even
  rw [hf, if_neg (by linarith), if_neg (by linarith), if_neg ho]

/-- Zero rounds to zero. -/
theorem to_double_zero : to_double 0 = 0 := by
  unfold to_double
  rw [zero_div, round_half_even_of_lt 0 0 (by norm_num) (by norm_num)]
  norm_num

/-- Rounding a positive normal number of exponent `k`: the spacing is
`2 ^ (k - 52)`. -/
theorem to_double_eval (q : ℚ) (k : ℤ) (hq : 0 < q) (h1 : (2 : ℚ) ^ k ≤ q)
    (h2 : q < (2 : ℚ) ^ (k + 1)) (hk : -1022 ≤ k) :
    to_double q = (round_half_even (q / 2 ^ (k - 52)) : ℚ) * 2 ^ (k - 52) := by
  have hlog : Int.log 2 |q| = k := by
    rw [abs_of_pos hq]
    apply le_antisymm
    · have := (Int.lt_zpow_iff_log_lt (b := 2) (by norm_num) hq).1 (by exact_mod_cast h2)
      omega
    · exact (Int.zpow_le_iff_le_log (b := 2) (by norm_num) hq).1 (by exact_mod_cast h1)
  have he : ulp_exponent q = k - 52 := by
    unfold ulp_exponent
    rw [hlog]
    exact max_eq_left (by omega)
  unfold to_double
  rw [he]

/-- Rounding the half sampling rate. -/
theorem to_double_300006 : to_double (300006) = 300006 := by
  rw [to_double_eval _ 18 (by norm_num) (by norm_num) (by norm_num) (by norm_num),
    round_half_even_of_lt _ 5154063834415104 (by norm_num) (by norm_num)]
  norm_num

/-- Rounding the bandwidth. -/
theorem to_double_50001 : to_double (50001) = 50001 := by
  rw [to_double_eval _ 15 (by norm_num) (by norm_num) (by norm_num) (by norm_num),
    round_half_even_of_lt _ 6872085112553472 (by norm_num) (by norm_num)]
  norm_num

/-- Rounding twice the bandwidth. -/
theorem to_double_100002 : to_double (100002) = 100002 := by
  rw [to_double_eval _ 16 (by norm_num) (by norm_num) (by norm_num) (by norm_num),
    round_half_even_of_lt _ 6872085112553472 (by norm_num) (by norm_num)]
  norm_num

/-- Rounding the literal `0.0001`. -/
theorem to_double_guard : to_double (1 / 10000) = 7378697629483821 / 73786976294838206464 := by
  rw [to_double_eval _ (-14) (by norm_num) (by norm_num) (by norm_num) (by norm_num),
    round_half_even_of_gt _ 7378697629483820 (by norm_num) (by norm_num)]
  norm_num

/-- Rounding the upper cutoff of band 0. -/
theorem to_double_band_high_0 : to_double (3689422594339507531922643 / 73786976294838206464) = 6872085098809577 / 137438953472 := by
  rw [to_double_eval _ 15 (by norm_num) (by norm_num) (by norm_num) (by norm_num),
    round_half_even_of_gt _ 6872085098809576 (by norm_num) (by norm_num)]
  norm_num

/-- Rounding the lower cutoff of band 1. -/
theorem to_double_band_low_1 : to_double (3689422609096902790890285 / 73786976294838206464) = 6872085126297367 / 137438953472 := by
  rw [to_double_eval _ 15 (by norm_num) (by norm_num) (by norm_num) (by norm_num),
    round_half_even_of_lt _ 6872085126297367 (by norm_num) (by norm_num)]
  norm_num

/-- Rounding the lower cutoff of band 2. -/
theorem to_double_band_low_2 : to_double (7378845210815107952296749 / 73786976294838206464) = 1718021279856355 / 17179869184 := by
  rw [to_double_eval _ 16 (by norm_num) (by norm_num) (by norm_num) (by norm_num),
    round_half_even_of_gt _ 6872085119425419 (by norm_num) (by norm_num)]
  norm_num

/-- Rounding the decimal `0.35`. -/
theorem to_double_power : to_double (7 / 20) = 3152519739159347 / 9007199254740992 := by
  rw [to_double_eval _ (-2) (by norm_num) (by norm_num) (by norm_num) (by norm_num),
    round_half_even_of_lt _ 6305039478318694 (by norm_num) (by norm_num)]
  norm_num

/-- Rounding the sum of two powers. -/
theorem to_double_sum_2 : to_double (3152519739159347 / 4503599627370496) = 3152519739159347 / 4503599627370496 := by
  rw [to_double_eval _ (-1) (by norm_num) (by norm_num) (by norm_num) (by norm_num),
    round_half_even_of_lt _ 6305039478318694 (by norm_num) (by norm_num)]
  norm_num

/-- Rounding the sum of three powers, a tie. -/
theorem to_double_sum_3 : to_double (9457559217478041 / 9007199254740992) = 1182194902184755 / 1125899906842624 := by
  rw [to_double_eval _ 0 (by norm_num) (by norm_num) (by norm_num) (by norm_num),
    round_half_even_tie_even _ 4728779608739020 (by norm_num) (by decide)]
  norm_num

/-- Rounding the rounded sum, unchanged by adding zero. -/
theorem to_double_sum : to_double (1182194902184755 / 1125899906842624) = 1182194902184755 / 1125899906842624 := by
  rw [to_double_eval _ 0 (by norm_num) (by norm_num) (by norm_num) (by norm_num),
    round_half_even_of_lt _ 4728779608739020 (by norm_num) (by norm_num)]
  norm_num

/-- Rounding the average. -/
theorem to_double_avg : to_double (1182194902184755 / 6755399441055744) = 6305039478318693 / 36028797018963968 := by
  rw [to_double_eval _ (-3) (by norm_num) (by norm_num) (by norm_num) (by norm_num),
    round_half_even_of_lt _ 6305039478318693 (by norm_num) (by norm_num)]
  norm_num

/-- Rounding twice the average. -/
theorem to_double_threshold : to_double (6305039478318693 / 18014398509481984) = 6305039478318693 / 18014398509481984 := by
  rw [to_double_eval _ (-2) (by norm_num) (by norm_num) (by norm_num) (by norm_num),
    round_half_even_of_lt _ 6305039478318693 (by norm_num) (by norm_num)]
  norm_num

/-! ## The analysis pass in binary64 arithmetic -/

/-- With the identity as rounding, the rounded analysis pass is the exact
one. -/
theorem main_analysis_rounded_id (Fs : ℚ) (nb : Nat) (bp : List ℚ) :
    main_analysis_rounded id Fs nb bp = main_analysis Fs nb bp := rfl

theorem report_band_rounded_labels (r : ℚ → ℚ) (Fs : ℚ) (nb : Nat) (bp : List ℚ)
    (mx avg : ℚ) (st : report_state) (b : Nat) :
    (report_band_rounded r Fs nb bp mx avg st b).labels =
      st.labels ++ [if anomalous_rounded r Fs nb bp avg b then label.WOW else label.meh] := by
  unfold report_band_rounded anomalous_rounded
  by_cases h1 : in_window (band_low_rounded r Fs nb b) (band_high_rounded r Fs nb b)
  · by_cases h2 : bp.getD b 0 > r (THRESHOLD * avg) <;>
      simp [h1, h2, -List.getD_eq_getElem?_getD]
  · simp [h1]

theorem report_band_rounded_wow (r : ℚ → ℚ) (Fs : ℚ) (nb : Nat) (bp : List ℚ)
    (mx avg : ℚ) (st : report_state) (b : Nat) :
    (report_band_rounded r Fs nb bp mx avg st b).wow =
      if anomalous_rounded r Fs nb bp avg b then true else st.wow := by
  unfold report_band_rounded anomalous_rounded
  by_cases h1 : in_window (band_low_rounded r Fs nb b) (band_high_rounded r Fs nb b)
  · by_cases h2 : bp.getD b 0 > r (THRESHOLD * avg) <;>
      simp [h1, h2, -List.getD_eq_getElem?_getD]
  · simp [h1]

/-- The labels after `n` iterations of the rounded report loop. -/
theorem report_loop_rounded_labels (r : ℚ → ℚ) (Fs : ℚ) (nb : Nat) (bp : List ℚ)
    (mx avg : ℚ) (init : report_state) (n : Nat) :
    ((List.range n).foldl (report_band_rounded r Fs nb bp mx avg) init).labels =
      init.labels ++
        (List.range n).map
          (fun b => if anomalous_rounded r Fs nb bp avg b then label.WOW else label.meh) := by
  induction n with
  | zero => simp
  | succ n ih =>
    rw [List.range_succ, List.foldl_append]
    simp only [List.foldl_cons, List.foldl_nil]
    rw [report_band_rounded_labels, ih]
    simp

/-- The rounded report loop does not set `wow` when no band is anomalous. -/
theorem report_loop_rounded_wow (r : ℚ → ℚ) (Fs : ℚ) (nb : Nat) (bp : List ℚ)
    (mx avg : ℚ) (init : report_state) (hw : init.wow = false)
    (hno : ∀ b, ¬ anomalous_rounded r Fs nb bp avg b) (n : Nat) :
    ((List.range n).foldl (report_band_rounded r Fs nb bp mx avg) init).wow = false := by
  induction n with
  | zero => exact hw
  | succ n ih =>
    rw [List.range_succ, List.foldl_append]
    simp only [List.foldl_cons, List.foldl_nil]
    rw [report_band_rounded_wow, if_neg (hno n), ih]

theorem main_analysis_rounded_final (r : ℚ → ℚ) (Fs : ℚ) (nb : Nat) (bp : List ℚ) :
    (main_analysis_rounded r Fs nb bp).final =
      (List.range nb).foldl
        (report_band_rounded r Fs nb bp (main_stats_rounded r nb bp).1
          (r ((main_stats_rounded r nb bp).2 / (nb : ℚ))))
        { lb := -1, ub := -1, wow := false, labels := []
          divisors := [2, (nb : ℚ), (nb : ℚ)] } := by
  unfold main_analysis_rounded
  simp only
  split <;> rfl

theorem main_analysis_rounded_verdict (r : ℚ → ℚ) (Fs : ℚ) (nb : Nat) (bp : List ℚ)
    (h : (main_analysis_rounded r Fs nb bp).final.wow = false) :
    (main_analysis_rounded r Fs nb bp).verdict = verdict.no_aliens := by
  rw [main_analysis_rounded_final] at h
  unfold main_analysis_rounded
  simp only
  rw [if_neg (by rw [h]; decide)]

/-- The rounded statistics loop on an all-zero array, for a rounding that
keeps zero: the sum is zero. -/
theorem main_stats_rounded_zero (r : ℚ → ℚ) (hr : r 0 = 0) (nb : Nat) (bp : List ℚ)
    (hz : ∀ x, x ∈ bp → x = 0) : (main_stats_rounded r nb bp).2 = 0 := by
  have hg : ∀ i, bp.getD i 0 = 0 := by
    intro i
    rw [List.getD_eq_getElem?_getD]
    by_cases hi : i < bp.length
    · rw [List.getElem?_eq_getElem hi]
      exact hz _ (List.getElem_mem hi)
    · rw [List.getElem?_eq_none (not_lt.1 hi)]
      rfl
  have hgen : ∀ (is : List Nat) (s : ℚ × ℚ), s.2 = 0 →
      (is.foldl
        (fun s i =>
          (if bp.getD i 0 > s.1 then bp.getD i 0 else s.1, r (s.2 + bp.getD i 0))) s).2 = 0 := by
    intro is
    induction is with
    | nil => intro s hs; simpa using hs
    | cons i is ih =>
      intro s hs
      rw [List.foldl_cons]
      apply ih
      simp only
      rw [hg, hs, add_zero, hr]
  unfold main_stats_rounded
  exact hgen _ _ (hg 0)

/-- On an all-zero array no band is anomalous in rounded arithmetic, for a
rounding that keeps zero. -/
theorem main_analysis_rounded_all_zero (r : ℚ → ℚ) (hr : r 0 = 0) (Fs : ℚ) (nb : Nat)
    (bp : List ℚ) (hz : ∀ x, x ∈ bp → x = 0) :
    (∀ b, b < nb → (main_analysis_rounded r Fs nb bp).final.labels[b]? = some label.meh) ∧
      (main_analysis_rounded r Fs nb bp).verdict = verdict.no_aliens := by
  have hg : ∀ i, bp.getD i 0 = 0 := by
    intro i
    rw [List.getD_eq_getElem?_getD]
    by_cases hi : i < bp.length
    · rw [List.getElem?_eq_getElem hi]
      exact hz _ (List.getElem_mem hi)
    · rw [List.getElem?_eq_none (not_lt.1 hi)]
      rfl
  have havg : r ((main_stats_rounded r nb bp).2 / (nb : ℚ)) = 0 := by
    rw [main_stats_rounded_zero r hr nb bp hz, zero_div, hr]
  have hno : ∀ b, ¬ anomalous_rounded r Fs nb bp 0 b := by
    rintro b ⟨_, h⟩
    rw [hg, mul_zero, hr] at h
    exact lt_irrefl _ h
  have hfin := main_analysis_rounded_final r Fs nb bp
  rw [havg] at hfin
  constructor
  · intro b hb
    rw [hfin, report_loop_rounded_labels]
    simp [hb, hno b]
  · apply main_analysis_rounded_verdict
    rw [hfin]
    exact report_loop_rounded_wow r Fs nb bp _ 0 _ rfl hno nb

/-- C10, refuted as stated: in binary64 arithmetic, with `Fs = 600012`, 6
bands and the powers `0.35, 0.35, 0.35, 0, 0, 0` (`0.35` standing for the
nearest binary64 number), the sum of the three powers rounds down, twice the
average falls below `0.35`, and bands 0, 1 and 2, all in the window, are
labelled WOW: 3 bands of 6, which is not below `6 / 2`. -/
theorem anomalous_count_rounding_counterexample :
    to_double 0.35 = 3152519739159347 / 9007199254740992 ∧
      (∀ x, x ∈ [(3152519739159347 / 9007199254740992 : ℚ),
          3152519739159347 / 9007199254740992, 3152519739159347 / 9007199254740992, 0, 0, 0] →
        0 ≤ x) ∧
      (main_analysis_rounded to_double 600012 6
          [3152519739159347 / 9007199254740992, 3152519739159347 / 9007199254740992,
            3152519739159347 / 9007199254740992, 0, 0, 0]).final.labels =
        [label.WOW, label.WOW, label.WOW, label.meh, label.meh, label.meh] ∧
      ¬ ((((main_analysis_rounded to_double 600012 6
          [3152519739159347 / 9007199254740992, 3152519739159347 / 9007199254740992,
            3152519739159347 / 9007199254740992, 0, 0, 0]).final.labels.count label.WOW : Nat) : ℚ)
        < ((6 : Nat) : ℚ) / 2) := by
  have hstats : main_stats_rounded to_double 6
      [3152519739159347 / 9007199254740992, 3152519739159347 / 9007199254740992,
        3152519739159347 / 9007199254740992, 0, 0, 0] =
      (3152519739159347 / 9007199254740992, 1182194902184755 / 1125899906842624) := by
    rw [main_stats_rounded, show List.range' 1 (6 - 1) = [1, 2, 3, 4, 5] from rfl]
    norm_num [to_double_sum_2, to_double_sum_3, to_double_sum]
  have hbw : bandwidth_rounded to_double 600012 6 = 50001 := by
    norm_num [bandwidth_rounded, to_double_300006, to_double_50001]
  have hT : to_double (THRESHOLD * to_double
      ((1182194902184755 / 1125899906842624 : ℚ) / ((6 : Nat) : ℚ))) =
      6305039478318693 / 18014398509481984 := by
    norm_num [THRESHOLD, to_double_avg, to_double_threshold]
  have h0 : band_high_rounded to_double 600012 6 0 = 6872085098809577 / 137438953472 := by
    rw [band_high_rounded, hbw]
    norm_num [to_double_50001, to_double_guard, to_double_band_high_0]
  have h1 : band_low_rounded to_double 600012 6 1 = 6872085126297367 / 137438953472 := by
    rw [band_low_rounded, hbw]
    norm_num [to_double_50001, to_double_guard, to_double_band_low_1]
  have h2 : band_low_rounded to_double 600012 6 2 = 1718021279856355 / 17179869184 := by
    rw [band_low_rounded, hbw]
    norm_num [to_double_100002, to_double_guard, to_double_band_low_2]
  have hlabels : (main_analysis_rounded to_double 600012 6
      [3152519739159347 / 9007199254740992, 3152519739159347 / 9007199254740992,
        3152519739159347 / 9007199254740992, 0, 0, 0]).final.labels =
      [label.WOW, label.WOW, label.WOW, label.meh, label.meh, label.meh] := by
    rw [main_analysis_rounded_final, report_loop_rounded_labels, hstats,
      show List.range 6 = [0, 1, 2, 3, 4, 5] from rfl]
    simp only [anomalous_rounded, hT, h0, h1, h2, in_window, ALIENS_LOW, ALIENS_HIGH,
      List.map_cons, List.map_nil, List.nil_append]
    norm_num
  refine ⟨?_, ?_, hlabels, ?_⟩
  · rw [show (0.35 : ℚ) = 7 / 20 by norm_num]
    exact to_double_power
  · intro x hx
    simp only [List.mem_cons, List.mem_singleton, List.not_mem_nil, or_false] at hx
    rcases hx with h | h | h | h | h | h <;> rw [h] <;> norm_num
  · rw [hlabels,
      show List.count label.WOW
          [label.WOW, label.WOW, label.WOW, label.meh, label.meh, label.meh] = 3 by decide]
    norm_num

/-! ## Counting anomalous bands -/

/-- In a list of non-negative numbers, the entries above `T` weigh more than
`T` each: their number times `T` is at most the sum, and below the sum
when there is such an entry. -/
theorem countP_gt_bound (T : ℚ) :
    ∀ l : List ℚ, (∀ x, x ∈ l → 0 ≤ x) →
      ((l.countP (fun x => decide (T < x)) : Nat) : ℚ) * T ≤ l.sum ∧
        (0 < l.countP (fun x => decide (T < x)) →
          ((l.countP (fun x => decide (T < x)) : Nat) : ℚ) * T < l.sum) := by
  intro l
  induction l with
  | nil => intro _; simp
  | cons x l ih =>
    intro h
    have hx : 0 ≤ x := h x (List.mem_cons_self _ _)
    obtain ⟨ih1, ih2⟩ := ih (fun y hy => h y (List.mem_cons_of_mem _ hy))
    by_cases hgt : T < x
    · have hc : (x :: l).countP (fun x => decide (T < x)) =
          l.countP (fun x => decide (T < x)) + 1 := by
        rw [List.countP_cons_of_pos]
        simpa using hgt
      rw [hc, List.sum_cons]
      push_cast
      constructor
      · linarith
      · intro _
        linarith
    · have hc : (x :: l).countP (fun x => decide (T < x)) =
          l.countP (fun x => decide (T < x)) := by
        rw [List.countP_cons_of_neg]
        simpa using hgt
      rw [hc, List.sum_cons]
      constructor
      · linarith
      · intro hpos
        have := ih2 hpos
        linarith

/-- Counting the entries above `T` by value or by index is the same. -/
theorem countP_getD_range (T : ℚ) (l : List ℚ) :
    l.countP (fun x => decide (T < x)) =
      (List.range l.length).countP (fun b => decide (T < l.getD b 0)) := by
  conv_lhs => rw [← map_getD_range l, List.countP_map]
  rfl

/-- The number of WOW labels is the number of anomalous band indices. -/
theorem count_wow_eq_countP (p : Nat → Prop) [DecidablePred p] (l : List Nat) :
    (l.map (fun b => if p b then label.WOW else label.meh)).count label.WOW =
      l.countP (fun b => decide (p b)) := by
  induction l with
  | nil => rfl
  | cons b l ih =>
    by_cases hb : p b
    · rw [List.map_cons, if_pos hb, List.count_cons_self, ih, List.countP_cons_of_pos]
      simpa using hb
    · rw [List.map_cons, if_neg hb, List.count_cons_of_ne (by decide), ih,
        List.countP_cons_of_neg]
      simpa using hb

/-- C10, amended.  Bound on false anomalies in exact arithmetic.  For a band
power array of length `num_bands ≥ 1` with non-negative entries, when the sum,
the average and the threshold are computed without rounding, the number of
bands labelled WOW is strictly below `num_bands / 2`.  When every entry is
zero, every band is labelled meh and the verdict is `no aliens`, in exact
arithmetic and in binary64 arithmetic alike. -/
theorem anomalous_count_bound (Fs : ℚ) (num_bands : Nat) (band_power : List ℚ)
    (hlen : band_power.length = num_bands) (hnb : 1 ≤ num_bands)
    (hnonneg : ∀ x, x ∈ band_power → 0 ≤ x) :
    (((main_analysis Fs num_bands band_power).final.labels.count label.WOW : Nat) : ℚ) <
        (num_bands : ℚ) / 2 ∧
      ((∀ x, x ∈ band_power → x = 0) →
        (∀ b, b < num_bands →
          (main_analysis Fs num_bands band_power).final.labels[b]? = some label.meh) ∧
        (main_analysis Fs num_bands band_power).verdict = verdict.no_aliens) ∧
      ((∀ x, x ∈ band_power → x = 0) →
        (∀ b, b < num_bands →
          (main_analysis_rounded to_double Fs num_bands band_power).final.labels[b]? =
            some label.meh) ∧
        (main_analysis_rounded to_double Fs num_bands band_power).verdict =
          verdict.no_aliens) := by
  have hnbq : (0 : ℚ) < (num_bands : ℚ) := by exact_mod_cast hnb
  refine ⟨?_, ?_, fun hz =>
    main_analysis_rounded_all_zero to_double to_double_zero Fs num_bands band_power hz⟩
  · have havg : (main_stats num_bands band_power).2 / (num_bands : ℚ) = mean band_power := by
      rw [main_stats_sum num_bands band_power hlen hnb, mean, hlen]
    have hsum0 : 0 ≤ band_power.sum := List.sum_nonneg hnonneg
    have hmean0 : 0 ≤ mean band_power := by
      rw [mean, hlen]
      exact div_nonneg hsum0 hnbq.le
    have hsum : band_power.sum = (num_bands : ℚ) * mean band_power := by
      rw [mean, hlen]
      field_simp
    rw [main_analysis_final, havg, (report_loop_labels _ _ _ _ _ _ _).1, List.nil_append,
      count_wow_eq_countP]
    have hle : (List.range num_bands).countP
          (fun b => decide (anomalous Fs num_bands band_power (mean band_power) b)) ≤
        band_power.countP (fun x => decide (THRESHOLD * mean band_power < x)) := by
      have h1 : band_power.countP (fun x => decide (THRESHOLD * mean band_power < x)) =
          (List.range num_bands).countP
            (fun b => decide (THRESHOLD * mean band_power < band_power.getD b 0)) := by
        rw [countP_getD_range, hlen]
      rw [h1]
      apply List.countP_mono_left
      intro b _ hb
      have hb2 : anomalous Fs num_bands band_power (mean band_power) b := by simpa using hb
      simpa using hb2.2
    obtain ⟨_, hb2⟩ := countP_gt_bound (THRESHOLD * mean band_power) band_power hnonneg
    have hleq : (((List.range num_bands).countP
          (fun b => decide (anomalous Fs num_bands band_power (mean band_power) b)) : Nat) : ℚ) ≤
        ((band_power.countP (fun x => decide (THRESHOLD * mean band_power < x)) : Nat) : ℚ) := by
      exact_mod_cast hle
    refine lt_of_le_of_lt hleq ?_
    generalize band_power.countP (fun x => decide (THRESHOLD * mean band_power < x)) = K at hb2
    by_cases hk : 0 < K
    · have h3 := hb2 hk
      have hTe : THRESHOLD = 2 := by norm_num [THRESHOLD]
      rw [hsum, hTe] at h3
      have hmpos : 0 < mean band_power := by
        rcases hmean0.lt_or_eq with h | h
        · exact h
        · rw [← h] at h3
          simp at h3
      have h4 : (K : ℚ) * 2 < (num_bands : ℚ) := by
        have : (K : ℚ) * 2 * mean band_power < (num_bands : ℚ) * mean band_power := by
          rw [mul_assoc]; exact h3
        exact lt_of_mul_lt_mul_right this hmpos.le
      linarith
    · have : K = 0 := by omega
      rw [this]
      simp only [Nat.cast_zero]
      positivity
  · intro hz
    obtain ⟨_, hwow⟩ := main_analysis_all_zero Fs num_bands band_power hlen hnb hz
    constructor
    · intro b hb
      rw [main_analysis_label Fs num_bands band_power b hb,
        main_analysis_avg_eq_mean Fs num_bands band_power hlen hnb,
        mean_zero_of_zero band_power hz,
        if_neg (not_anomalous_of_zero Fs num_bands band_power hz b)]
    · rw [main_analysis_verdict, hwow]
      rfl

/-- C10 amended, at `Fs = 500000` and 10 bands with power in bands 2 and 4:
fewer than 5 bands are labelled WOW. -/
theorem anomalous_count_bound_witness :
    (((main_analysis 500000 10 [0, 0, 9, 0, 9, 0, 0, 0, 0, 0]).final.labels.count
      label.WOW : Nat) : ℚ) < ((10 : Nat) : ℚ) / 2 :=
  (anomalous_count_bound 500000 10 [0, 0, 9, 0, 9, 0, 0, 0, 0, 0] rfl (by decide)
    (by
      intro x hx
      simp only [List.mem_cons, List.mem_singleton, List.not_mem_nil, or_false] at hx
      rcases hx with h | h | h | h | h | h | h | h | h | h <;> rw [h] <;> norm_num)).1

end PBandScan
